import Mathlib

/-!
Shallow embedding of the Automata-Theory repository (three Python modules:
`regexConversions.py`, `EilenbergMachine.py`, `DFSM.py`) together with proofs
about the embedded code.

Modelling conventions, used uniformly below:
* Python lists become Lean `List`s; Python strings become `String`/`List Char`.
* Python dictionaries used as renumbering maps become association lists
  (`List (Nat × Nat)`); `d[k] = v` is `dictInsert` (overwrite semantics),
  `d[k]` is `List.lookup`, with a missing key (Python `KeyError`) surfacing
  as `Option`.
* A Python function that can fall off the end returning `None`, or abort with
  an exception on malformed input, is modelled with an `Option` result.
* `while not q.empty()` worklist loops are modelled by structural recursion on
  an explicit fuel argument chosen (and documented at each definition) large
  enough to cover every terminating run of the Python loop; the loop body is
  transcribed unchanged.
-/

/-! ## regexConversions.py -/

/-- The dict `priority_operations = {'*': 1, '.': 2, '|': 3, '(': 4, ')': 4}`
from `conversion_to_postfix_expr`.  The Python dict raises on other keys, but
it is only ever consulted on these five characters; the final branch is the
value for `'('`/`')'`. -/
def priority_operations (c : Char) : Nat :=
  if c = '*' then 1 else if c = '.' then 2 else if c = '|' then 3 else 4

/-- The loop `while len(stack) > 0 and priority_operations[char] >
priority_operations[stack[-1]]: postfix_reg_expr += stack.pop()` from
`conversion_to_postfix_expr`.  The stack's head is its top.  Returns the
popped characters (in pop order) and the remaining stack. -/
def popGreater (char : Char) : List Char → List Char × List Char
  | [] => ([], [])
  | top :: rest =>
    if priority_operations char > priority_operations top then
      let (out, st) := popGreater char rest
      (top :: out, st)
    else ([], top :: rest)

/-- The loop `while stack[-1] != '(': postfix_reg_expr += stack.pop()`
followed by `stack.pop()` from `conversion_to_postfix_expr` (the `')'`
branch).  On an exhausted stack Python would raise `IndexError`; inputs with
balanced parentheses never reach that case. -/
def popUntilOpen : List Char → List Char × List Char
  | [] => ([], [])
  | top :: rest =>
    if top = '(' then ([], rest)
    else
      let (out, st) := popUntilOpen rest
      (top :: out, st)

/-- The `for char in reg_expr` loop of `conversion_to_postfix_expr`,
threading the output string and the operator stack (head = top). -/
def postfixLoop : List Char → List Char → List Char → List Char
  | [], out, stack => out ++ stack
  | char :: cs, out, stack =>
    if char = '(' then postfixLoop cs out ('(' :: stack)
    else if char = ')' then
      let (popped, rest) := popUntilOpen stack
      postfixLoop cs (out ++ popped) rest
    else if char = '.' ∨ char = '|' then
      let (popped, rest) := popGreater char stack
      postfixLoop cs (out ++ popped) (char :: rest)
    else if char = '*' ∨ char ≠ ' ' then postfixLoop cs (out ++ [char]) stack
    else postfixLoop cs out stack

/-- `conversion_to_postfix_expr` from `regexConversions.py`. -/
def conversion_to_postfix_expr (reg_expr : String) : String :=
  String.mk (postfixLoop reg_expr.data [] [])

/-- The dict-shaped regex AST of the repository:
`{'key': k, 'val': token}` (`atmNode`), `{'key': k, 'val': <ast>}`
(`unNode`), and `{'key': k, 'val': {'fst': ast, 'snd': ast}}` (`binNode`).
The `key` field is an arbitrary string, exactly as in the Python dicts. -/
inductive RegJson where
  | atmNode (key : String) (value : Char)
  | unNode (key : String) (value : RegJson)
  | binNode (key : String) (value_fst value_snd : RegJson)
deriving Repr, DecidableEq

/-- `reg_expr['key']`. -/
def RegJson.key : RegJson → String
  | .atmNode k _ => k
  | .unNode k _ => k
  | .binNode k _ _ => k

/-- `conversion_reg_expr_to_str` from `regexConversions.py`.  The Python
if/elif chain falls off the end (returning `None`) when `key` is none of
`'atm'`, `'*'`, `'.'`, `'|'`; a branch whose `val` has the wrong shape
aborts in Python (`TypeError`/`KeyError`, or a non-string leaking into
string concatenation); both are modelled as `none`. -/
def conversion_reg_expr_to_str : RegJson → Option String
  | .atmNode key value =>
    if key = "atm" then some (String.mk [value]) else none
  | .unNode key value =>
    if key = "atm" then none
    else if key = "*" then
      (conversion_reg_expr_to_str value).map (fun s =>
        if value.key = "atm" then s ++ "*" else "(" ++ s ++ ")*")
    else none
  | .binNode key value_fst value_snd =>
    if key = "atm" ∨ key = "*" then none
    else if key = "." then do
      let fst0 ← conversion_reg_expr_to_str value_fst
      let snd0 ← conversion_reg_expr_to_str value_snd
      let fst1 := if value_fst.key = "|" then "(" ++ fst0 ++ ")" else fst0
      let snd1 := if value_snd.key = "|" then "(" ++ snd0 ++ ")" else snd0
      some (fst1 ++ "." ++ snd1)
    else if key = "|" then do
      let fst0 ← conversion_reg_expr_to_str value_fst
      let snd0 ← conversion_reg_expr_to_str value_snd
      some (fst0 ++ "|" ++ snd0)
    else none

/-- The `for char in reg_expr` loop of `conversion_reg_expr_to_json`
(postfix evaluation).  The stack's head is its top (Python appends/pops at
the end of the list); `stack.pop()` on an empty stack raises in Python and
is `none` here. -/
def postfixEvalLoop : List Char → List RegJson → Option (List RegJson)
  | [], stack => some stack
  | char :: cs, stack =>
    if char = '*' then
      match stack with
      | value :: rest => postfixEvalLoop cs (RegJson.unNode "*" value :: rest)
      | [] => none
    else if char = '.' ∨ char = '|' then
      match stack with
      | second :: first :: rest =>
        postfixEvalLoop cs (RegJson.binNode (String.mk [char]) first second :: rest)
      | _ => none
    else postfixEvalLoop cs (RegJson.atmNode "atm" char :: stack)

/-- `conversion_reg_expr_to_json` from `regexConversions.py`: convert to
postfix, evaluate with a stack, return the final `stack.pop()`. -/
def conversion_reg_expr_to_json (reg_expr : String) : Option RegJson := do
  let stack ← postfixEvalLoop (conversion_to_postfix_expr reg_expr).data []
  stack.head?

/-! ## EilenbergMachine.py -/

/-- `class EilenbergMachine` from `EilenbergMachine.py`. -/
structure EilenbergMachine where
  number_states : Nat
  transitions_between_states : List (List (Nat × Char))
  initial_states : List Nat
  acceptable_states : List Nat
deriving Repr, DecidableEq

/-- The worklist loop of `EilenbergMachine.accept`: a FIFO queue of pairs
`(state, remaining input)`; an item with exhausted input succeeds when its
state is acceptable, otherwise every edge matching the next character is
enqueued.  Fuel bounds the number of processed items; `accept` below passes
fuel exceeding the number of items any run can process, and fuel exhaustion
returns `False` exactly as an emptied queue does. -/
def acceptLoop (m : EilenbergMachine) : Nat → List (Nat × List Char) → Bool
  | fuel, q =>
    match q with
    | [] => false
    | (state, expr) :: rest =>
      match fuel with
      | 0 => false
      | fuel + 1 =>
        match expr with
        | [] =>
          if m.acceptable_states.contains state then true
          else acceptLoop m fuel rest
        | c :: expr' =>
          acceptLoop m fuel
            (rest ++ ((m.transitions_between_states.getD state []).filter
              (fun e => e.2 = c)).map (fun e => (e.1, expr')))

/-- The largest number of outgoing edges of any state (an upper bound on the
items one processed item can enqueue). -/
def EilenbergMachine.maxDegree (m : EilenbergMachine) : Nat :=
  (m.transitions_between_states.map List.length).foldr max 0

/-- Fuel for `accept`: a processed item holding `k` remaining characters
enqueues at most `maxDegree` items holding `k - 1`, so a run processes at
most `|initial| * (maxDegree + 1) ^ (|expr| + 1)` items; this bound strictly
exceeds that. -/
def acceptFuel (m : EilenbergMachine) (expr : List Char) : Nat :=
  (m.initial_states.length + 1) * (m.maxDegree + 2) ^ (expr.length + 1)

/-- `EilenbergMachine.accept` from `EilenbergMachine.py`: seeds the queue
with `(s, expr)` for every initial state `s` and runs the worklist. -/
def EilenbergMachine.accept (m : EilenbergMachine) (expr : String) : Bool :=
  acceptLoop m (acceptFuel m expr.data) (m.initial_states.map (fun s => (s, expr.data)))

/-- The loop of `_build_Eilenberg_machine_oper_asterisk` for one state `s`:
Python iterates over `transitions_between_states[s]` while appending to that
same list, so appended edges are themselves visited; this is transcribed as
an index walking a growing list.  Fuel bounds the walk; the caller passes
`(len + 1) * (len(initial_states) + 1)`, enough for every machine whose
acceptable and initial states are disjoint (every machine the builder
produces), since then appended edges target non-acceptable states and append
nothing further. -/
def starLoopEdges (acceptable_states initial_states : List Nat) :
    Nat → List (Nat × Char) → Nat → List (Nat × Char)
  | fuel, edges, i =>
    match edges[i]? with
    | none => edges
    | some (state, character) =>
      match fuel with
      | 0 => edges
      | fuel + 1 =>
        let edges' :=
          if acceptable_states.contains state then
            edges ++ initial_states.map (fun init_state => (init_state, character))
          else edges
        starLoopEdges acceptable_states initial_states fuel edges' (i + 1)

/-- `EilenbergMachine._build_Eilenberg_machine_oper_asterisk` applied to the
already-built machine of the starred subexpression: for every edge leading
into an acceptable state, add edges to all initial states with the same
symbol.  `number_states`, `initial_states` and `acceptable_states` are
unchanged. -/
def _build_Eilenberg_machine_oper_asterisk (e_machine : EilenbergMachine) : EilenbergMachine :=
  { e_machine with
    transitions_between_states :=
      (List.range e_machine.number_states).map (fun s =>
        let edges := e_machine.transitions_between_states.getD s []
        starLoopEdges e_machine.acceptable_states e_machine.initial_states
          ((edges.length + 1) * (e_machine.initial_states.length + 1)) edges 0) }

/-- `d[k] = v` on a Python dict modelled as an association list: overwrite
the binding of `k`. -/
def dictInsert (d : List (Nat × Nat)) (k v : Nat) : List (Nat × Nat) :=
  d.filter (fun p => ¬ p.1 = k) ++ [(k, v)]

/-- `t[i].append(x)` on a Python list of lists (every use below is in
range, matching Python's bounds requirement). -/
def appendAt (t : List (List α)) (i : Nat) (x : α) : List (List α) :=
  t.set i (t.getD i [] ++ [x])

/-- The four-way case analysis of `_build_Eilenberg_machine_oper_concat` for
one edge `(state, character)` out of state `s` of the second machine,
rewriting it into the transitions accumulated in `t`.  A lookup of a state
missing from `new_state_numbers` is a Python `KeyError`, hence `none`. -/
def concatEdgeCase (fst_acceptable snd_initial : List Nat) (new_state_numbers : List (Nat × Nat))
    (t : List (List (Nat × Char))) (s : Nat) (e : Nat × Char) : Option (List (List (Nat × Char))) :=
  let (state, character) := e
  if snd_initial.contains s ∧ ¬ snd_initial.contains state then
    (new_state_numbers.lookup state).map (fun ns =>
      fst_acceptable.foldl (fun t act_s => appendAt t act_s (ns, character)) t)
  else if snd_initial.contains s ∧ snd_initial.contains state then
    some (fst_acceptable.foldl (fun t act_s => appendAt t act_s (act_s, character)) t)
  else if ¬ snd_initial.contains s ∧ snd_initial.contains state then
    (new_state_numbers.lookup s).map (fun ns =>
      fst_acceptable.foldl (fun t act_s => appendAt t ns (act_s, character)) t)
  else do
    let ns ← new_state_numbers.lookup s
    let nstate ← new_state_numbers.lookup state
    some (appendAt t ns (nstate, character))

/-- `EilenbergMachine._build_Eilenberg_machine_oper_concat` applied to the
already-built machines of the two subexpressions. -/
def _build_Eilenberg_machine_oper_concat (machine_fst machine_snd : EilenbergMachine) :
    Option EilenbergMachine := do
  let number_states :=
    machine_fst.number_states + machine_snd.number_states - machine_snd.initial_states.length
  let nsnp := (List.range machine_snd.number_states).foldl
    (fun (acc : List (Nat × Nat) × Nat) s =>
      if machine_snd.initial_states.contains s then acc
      else (dictInsert acc.1 s acc.2, acc.2 + 1))
    ([], machine_fst.number_states)
  let new_state_numbers := nsnp.1
  let base := machine_fst.transitions_between_states ++
    List.replicate (machine_snd.number_states - machine_snd.initial_states.length) []
  let transitions_between_states ← (List.range machine_snd.number_states).foldlM
    (fun t s => (machine_snd.transitions_between_states.getD s []).foldlM
      (fun t e =>
        concatEdgeCase machine_fst.acceptable_states machine_snd.initial_states
          new_state_numbers t s e) t)
    base
  let acceptable_states ← machine_snd.acceptable_states.mapM
    (fun s => new_state_numbers.lookup s)
  some ⟨number_states, transitions_between_states, machine_fst.initial_states, acceptable_states⟩

/-- `EilenbergMachine._build_Eilenberg_machine_oper_or` applied to the
already-built machines of the two subexpressions: disjoint union, the second
machine's states offset by the first machine's state count. -/
def _build_Eilenberg_machine_oper_or (machine_fst machine_snd : EilenbergMachine) :
    EilenbergMachine :=
  let number_states := machine_fst.number_states + machine_snd.number_states
  let base := machine_fst.transitions_between_states ++
    List.replicate machine_snd.number_states []
  let transitions_between_states := (List.range machine_snd.number_states).foldl
    (fun t s => (machine_snd.transitions_between_states.getD s []).foldl
      (fun t (e : Nat × Char) =>
        appendAt t (s + machine_fst.number_states) (e.1 + machine_fst.number_states, e.2)) t)
    base
  ⟨number_states, transitions_between_states,
    machine_fst.initial_states ++ machine_snd.initial_states.map (· + machine_fst.number_states),
    machine_fst.acceptable_states ++ machine_snd.acceptable_states.map (· + machine_fst.number_states)⟩

/-- `EilenbergMachine.get_Eilenberg_machine` from `EilenbergMachine.py`:
dispatch on `reg_expr['key']`.  The Python if/elif chain falls off the end
(returning `None`) for any other key; a branch receiving a `val` of the
wrong shape aborts in Python and is likewise `none`. -/
def get_Eilenberg_machine : RegJson → Option EilenbergMachine
  | .atmNode key value =>
    if key = "atm" then some ⟨2, [[(1, value)], []], [0], [1]⟩ else none
  | .unNode key value =>
    if key = "atm" then none
    else if key = "*" then
      (get_Eilenberg_machine value).map _build_Eilenberg_machine_oper_asterisk
    else none
  | .binNode key value_fst value_snd =>
    if key = "atm" ∨ key = "*" then none
    else if key = "." then do
      let machine_fst ← get_Eilenberg_machine value_fst
      let machine_snd ← get_Eilenberg_machine value_snd
      _build_Eilenberg_machine_oper_concat machine_fst machine_snd
    else if key = "|" then do
      let machine_fst ← get_Eilenberg_machine value_fst
      let machine_snd ← get_Eilenberg_machine value_snd
      some (_build_Eilenberg_machine_oper_or machine_fst machine_snd)
    else none

/-! ## DFSM.py -/

/-- `class DFSM` from `DFSM.py`. -/
structure DFSM where
  alphabet : List Char
  number_states : Nat
  transitions_between_states : List (List (Nat × Char))
  initial_state : Nat
  acceptable_states : List Nat
deriving Repr, DecidableEq

/-- `DFSM._transition`: first edge out of `state` labelled `char`, or the
sentinel `-1` (modelled `none`) when there is none. -/
def DFSM._transition (m : DFSM) (state : Nat) (char : Char) : Option Nat :=
  ((m.transitions_between_states.getD state []).find? (fun e => e.2 = char)).map (fun e => e.1)

/-- The BFS worklist loop of `DFSM.eliminate_unreachable_states`: pop a
state, mark-and-enqueue every unmarked successor.  A state is enqueued only
when its `used` flag flips, so a run dequeues at most
`number_states + (number of edges) + 1` items; the caller passes that as
fuel, and both fuel exhaustion and an empty queue return the `used` array. -/
def bfsLoop (transitions : List (List (Nat × Char))) :
    Nat → List Nat → List Bool → List Bool
  | fuel, q, used =>
    match q with
    | [] => used
    | state :: rest =>
      match fuel with
      | 0 => used
      | fuel + 1 =>
        let step := (transitions.getD state []).foldl
          (fun (acc : List Nat × List Bool) (e : Nat × Char) =>
            if acc.2.getD e.1 false then acc
            else (acc.1 ++ [e.1], acc.2.set e.1 true))
          (rest, used)
        bfsLoop transitions fuel step.1 step.2

/-- `DFSM.eliminate_unreachable_states` from `DFSM.py`: BFS from the initial
state, renumber the reachable states in ascending order of original index,
keep the edges between reachable states, remap the initial state and the
reachable acceptable states.  (The `.getD 0` after each dict lookup is never
exercised: every looked-up state has its `used` flag set and hence a
binding.) -/
def DFSM.eliminate_unreachable_states (m : DFSM) : DFSM :=
  let used0 := (List.replicate m.number_states false).set m.initial_state true
  let fuel := m.number_states + (m.transitions_between_states.map List.length).sum + 1
  let used := bfsLoop m.transitions_between_states fuel [m.initial_state] used0
  let nsnp := (List.range m.number_states).foldl
    (fun (acc : List (Nat × Nat) × Nat) s =>
      if used.getD s false then (dictInsert acc.1 s acc.2, acc.2 + 1) else acc)
    ([], 0)
  let new_state_numbers := nsnp.1
  let new_number := nsnp.2
  let new_transitions := (List.range m.number_states).foldl
    (fun t s =>
      if used.getD s false then
        (m.transitions_between_states.getD s []).foldl
          (fun t (e : Nat × Char) =>
            if used.getD e.1 false then
              appendAt t ((new_state_numbers.lookup s).getD 0)
                ((new_state_numbers.lookup e.1).getD 0, e.2)
            else t) t
      else t)
    (List.replicate new_number [])
  { alphabet := m.alphabet
    number_states := new_number
    transitions_between_states := new_transitions
    initial_state := (new_state_numbers.lookup m.initial_state).getD 0
    acceptable_states := m.acceptable_states.foldl
      (fun acc s =>
        if used.getD s false then acc ++ [(new_state_numbers.lookup s).getD 0] else acc) [] }

/-- The inner `for state in s` loop of `DFSM.reduce_dfsm`: split one class
`s` into the members whose `_transition` on `char` lands inside `set_states`
(`set_fst`) and the rest, a missing transition counting as not landing
(`set_snd`). -/
def DFSM.splitClass (m : DFSM) (set_states : List Nat) (char : Char) (s : List Nat) :
    List Nat × List Nat :=
  s.foldl (fun (acc : List Nat × List Nat) state =>
    match m._transition state char with
    | none => (acc.1, acc.2 ++ [state])
    | some to_state =>
      if set_states.contains to_state then (acc.1 ++ [state], acc.2)
      else (acc.1, acc.2 ++ [state]))
    ([], [])

/-- The `for s in classes` loop of `DFSM.reduce_dfsm` for one worklist task
`(set_states, char)`.  Python iterates over the *live* `classes` list while
the body mutates it (`classes.remove(s)` plus two appends), so the element
shifted into a removed class's slot is skipped and the halves appended
during the pass are themselves visited; this is transcribed as an index `n`
walking the changing list.  `classes.remove(s)` removes the first class
equal to `s` (`List.erase`).  Newly produced worklist pairs are accumulated
in `tasks`.  Fuel bounds the walk; the caller passes
`classes.length + 2 * number_states + 4`, enough for every run on a machine
whose classes partition the states, since each split removes one class and
appends two and at most `number_states` splits can ever occur. -/
def DFSM.splitPass (m : DFSM) (set_states : List Nat) (char : Char) :
    Nat → Nat → List (List Nat) → List (List Nat × Char) →
    List (List Nat) × List (List Nat × Char)
  | fuel, n, classes, tasks =>
    match classes[n]? with
    | none => (classes, tasks)
    | some s =>
      match fuel with
      | 0 => (classes, tasks)
      | fuel + 1 =>
        let (set_fst, set_snd) := m.splitClass set_states char s
        if ¬ set_fst.length = 0 ∧ ¬ set_snd.length = 0 then
          DFSM.splitPass m set_states char fuel (n + 1)
            (classes.erase s ++ [set_fst, set_snd])
            (tasks ++ m.alphabet.flatMap (fun c => [(set_fst, c), (set_snd, c)]))
        else
          DFSM.splitPass m set_states char fuel (n + 1) classes tasks

/-- The outer `while not q.empty()` worklist loop of `DFSM.reduce_dfsm`:
pop a task `(set_states, char)`, run one split pass over the classes, append
the newly produced tasks FIFO.  Fuel bounds the number of popped tasks; the
caller passes `2 * |alphabet| * (number_states + 1) + 1`, enough for every
run on a machine whose classes partition the states (each of the at most
`number_states` splits enqueues `2 * |alphabet|` tasks, on top of the
`2 * |alphabet|` seeds). -/
def DFSM.reduceLoop (m : DFSM) : Nat → List (List Nat × Char) → List (List Nat) →
    List (List Nat)
  | fuel, tasks, classes =>
    match tasks with
    | [] => classes
    | (set_states, char) :: rest =>
      match fuel with
      | 0 => classes
      | fuel + 1 =>
        let p := m.splitPass set_states char (classes.length + 2 * m.number_states + 4)
          0 classes []
        DFSM.reduceLoop m fuel (rest ++ p.2) p.1

/-- `DFSM.reduce_dfsm` from `DFSM.py`: partition refinement starting from
the classes `[acceptable, non-acceptable]`, seeded with every
`(class, symbol)` pair, followed by renumbering: each final class (an empty
class included) receives the next number, transitions are rewritten through
the class numbering with duplicate edges dropped, and the acceptable list is
rewritten with duplicates dropped. -/
def DFSM.reduce_dfsm (m : DFSM) : DFSM :=
  let not_acceptable_states :=
    (List.range m.number_states).filter (fun i => ¬ m.acceptable_states.contains i)
  let classes0 := [m.acceptable_states, not_acceptable_states]
  let tasks0 := m.alphabet.flatMap
    (fun c => [(m.acceptable_states, c), (not_acceptable_states, c)])
  let classes := m.reduceLoop (2 * m.alphabet.length * (m.number_states + 1) + 1) tasks0 classes0
  let nsnp := classes.foldl
    (fun (acc : List (Nat × Nat) × Nat) s =>
      (s.foldl (fun d state => dictInsert d state acc.2) acc.1, acc.2 + 1))
    ([], 0)
  let new_state_numbers := nsnp.1
  let new_number := nsnp.2
  let new_transitions := (List.range m.number_states).foldl
    (fun t s => (m.transitions_between_states.getD s []).foldl
      (fun t (e : Nat × Char) =>
        let ns := (new_state_numbers.lookup s).getD 0
        let ne := ((new_state_numbers.lookup e.1).getD 0, e.2)
        if (t.getD ns []).contains ne then t else appendAt t ns ne) t)
    (List.replicate new_number [])
  { alphabet := m.alphabet
    number_states := new_number
    transitions_between_states := new_transitions
    initial_state := (new_state_numbers.lookup m.initial_state).getD 0
    acceptable_states := m.acceptable_states.foldl
      (fun acc s =>
        let ns := (new_state_numbers.lookup s).getD 0
        if acc.contains ns then acc else acc ++ [ns]) [] }

/-- Modelled from the spec: deterministic DFA stepping ("the language
accepted ... tested via NFASimulator-equivalent DFA stepping"), which is not
itself a function of `DFSM.py`: starting from `initial_state`, follow
`_transition` on each character (a missing transition rejects), and accept
when the final state is acceptable. -/
def DFSM.deterministicAccept (m : DFSM) (w : List Char) : Bool :=
  match w.foldl (fun st c => st.bind (fun s => m._transition s c)) (some m.initial_state) with
  | none => false
  | some s => m.acceptable_states.contains s

/-! ## Concrete inputs used by the claims -/

/-- The AST of the test regular expression `((a|b*)*.((d*.e)|c)).(b|a)*`
(the contents of `reg_expr_test.json` consumed by the module-level test of
`EilenbergMachine.py`). -/
def reg_expr_test : RegJson :=
  RegJson.binNode "."
    (RegJson.binNode "."
      (RegJson.unNode "*"
        (RegJson.binNode "|" (RegJson.atmNode "atm" 'a')
          (RegJson.unNode "*" (RegJson.atmNode "atm" 'b'))))
      (RegJson.binNode "|"
        (RegJson.binNode "." (RegJson.unNode "*" (RegJson.atmNode "atm" 'd'))
          (RegJson.atmNode "atm" 'e'))
        (RegJson.atmNode "atm" 'c')))
    (RegJson.unNode "*" (RegJson.binNode "|" (RegJson.atmNode "atm" 'b')
      (RegJson.atmNode "atm" 'a')))

/-- A 5-state machine (all states reachable) on which `reduce_dfsm` merges
the two inequivalent states `2` and `3`: the only worklist task able to
separate them, `([4], 'b')`, splits the class `[0, 1]` sitting immediately
before their class `[2, 3]` in the live list, so `[2, 3]` is skipped. -/
def reduceCounterexample : DFSM :=
  ⟨['a', 'b', 'r'], 5,
    [[(0, 'a'), (4, 'b'), (1, 'r')], [(1, 'a'), (2, 'r')], [(4, 'b')], [], [(3, 'r')]],
    0, [4]⟩

/-- A one-state machine with a self-loop and no acceptable state:
`reduce_dfsm` renumbers the empty acceptable class as a fresh state, so
every application grows the machine. -/
def idempotenceCounterexample : DFSM := ⟨['a'], 1, [[(0, 'a')]], 0, []⟩

/-- A 4-state machine whose two seed classes `[0, 1]` and `[2, 3]` are both
splittable by the very first worklist task `([0, 1], 'a')`: the split of
`[0, 1]` makes the live iteration skip `[2, 3]`. -/
def splitSkipMachine : DFSM :=
  ⟨['a'], 4, [[(0, 'a')], [(2, 'a')], [(0, 'a')], [(3, 'a')]], 0, [0, 1]⟩

set_option maxRecDepth 4000

/-! ## C1 -/

/-- C1: the claim states that `eliminate_unreachable_states` followed by
`reduce_dfsm` preserves the accepted language of every deterministic
machine.  On `reduceCounterexample` (where pruning is the identity: every
state is reachable) the word `"brb"` is rejected by the original machine but
accepted by the reduced one, because the live-list iteration of
`reduce_dfsm` skipped the one split that separates states `2` and `3`. -/
theorem C1_minimize_breaks_language :
    reduceCounterexample.eliminate_unreachable_states = reduceCounterexample ∧
    reduceCounterexample.deterministicAccept "brb".data = false ∧
    (reduceCounterexample.eliminate_unreachable_states.reduce_dfsm).deterministicAccept
      "brb".data = true := by
  refine ⟨rfl, rfl, rfl⟩

/-! ## C2 -/

/-- C2: the machine built by `get_Eilenberg_machine` from the AST of
`((a|b*)*.((d*.e)|c)).(b|a)*` returns exactly the ten documented `accept`
results.  The first conjunct checks, via the repository's own parser, that
`reg_expr_test` is the AST of that regular expression. -/
theorem C2_eilenberg_ten_accepts :
    conversion_reg_expr_to_json "((a|b*)*.((d*.e)|c)).(b|a)*" = some reg_expr_test ∧
    (get_Eilenberg_machine reg_expr_test).map (fun m =>
      (m.accept "ac", m.accept "", m.accept "bbbda", m.accept "bbabbda", m.accept "abab",
        m.accept "addeca", m.accept "abbddeaaab", m.accept "aca", m.accept "bdea",
        m.accept "bbcbb")) =
      some (false, false, false, false, false, false, true, true, true, true) := by
  refine ⟨rfl, rfl⟩

/-! ## C8 -/

/-- C8: the claim states that minimization is idempotent on state count.  On
`idempotenceCounterexample`, `reduce_dfsm` after pruning yields 2 states and
a second `reduce_dfsm` yields 3: the empty acceptable class is renumbered as
a fresh unreachable state on every application. -/
theorem C8_reduce_not_idempotent :
    (idempotenceCounterexample.eliminate_unreachable_states.reduce_dfsm).number_states = 2 ∧
    (idempotenceCounterexample.eliminate_unreachable_states.reduce_dfsm).reduce_dfsm.number_states
      = 3 := by
  refine ⟨rfl, rfl⟩

/-! ## C9 -/

/-- C9 (as stated, false): the claim says an AST with an unknown tag makes
construction and serialization fail with an `UnknownOperator` error rather
than return a value.  Both Python functions simply fall off their if/elif
chains and return the value `None` (no `UnknownOperator` exists anywhere in
the repository): at the concrete tag `"x"` both return `None`. -/
theorem C9_counterexample :
    get_Eilenberg_machine (RegJson.atmNode "x" 'a') = none ∧
    conversion_reg_expr_to_str (RegJson.atmNode "x" 'a') = none := by
  refine ⟨rfl, rfl⟩

/-- C9 (amended): for every AST record whose tag is none of `'atm'`, `'*'`,
`'.'`, `'|'`, both `get_Eilenberg_machine` and `conversion_reg_expr_to_str`
return `None` (modelled `none`) rather than a machine or a string — no
exception is raised. -/
theorem C9_unknown_key_returns_none (e : RegJson)
    (h1 : e.key ≠ "atm") (h2 : e.key ≠ "*") (h3 : e.key ≠ ".") (h4 : e.key ≠ "|") :
    get_Eilenberg_machine e = none ∧ conversion_reg_expr_to_str e = none := by
  cases e with
  | atmNode key value =>
    simp only [RegJson.key] at h1 h2 h3 h4
    simp [get_Eilenberg_machine, conversion_reg_expr_to_str, h1, h2, h3, h4]
  | unNode key value =>
    simp only [RegJson.key] at h1 h2 h3 h4
    simp [get_Eilenberg_machine, conversion_reg_expr_to_str, h1, h2, h3, h4]
  | binNode key value_fst value_snd =>
    simp only [RegJson.key] at h1 h2 h3 h4
    simp [get_Eilenberg_machine, conversion_reg_expr_to_str, h1, h2, h3, h4]

/-- Witness for `C9_unknown_key_returns_none` at the concrete tag `"?"`. -/
theorem C9_unknown_key_returns_none_witness :
    get_Eilenberg_machine (RegJson.unNode "?" (RegJson.atmNode "atm" 'a')) = none ∧
    conversion_reg_expr_to_str (RegJson.unNode "?" (RegJson.atmNode "atm" 'a')) = none :=
  C9_unknown_key_returns_none (RegJson.unNode "?" (RegJson.atmNode "atm" 'a'))
    (by decide) (by decide) (by decide) (by decide)

/-! ## C3 -/

/-- `popGreater` pops exactly the longest prefix of the stack whose
priorities are strictly below the incoming operator's priority, and leaves
the rest. -/
theorem popGreater_eq_takeWhile (char : Char) (stack : List Char) :
    popGreater char stack =
      (stack.takeWhile (fun top => priority_operations top < priority_operations char),
        stack.dropWhile (fun top => priority_operations top < priority_operations char)) := by
  induction stack with
  | nil => rfl
  | cons top rest ih =>
    by_cases h : priority_operations char > priority_operations top
    · simp [popGreater, List.takeWhile_cons, List.dropWhile_cons, h, ih]
    · simp [popGreater, List.takeWhile_cons, List.dropWhile_cons, h]

/-- C3 (as stated, false): the claim says an equal-priority operator on the
stack top is popped and that `"a.b.c"` therefore converts to the
left-associative postfix `"ab.c."`.  The code pops only while the incoming
priority is strictly greater, so the actual output is the right-associative
`"abc.."`. -/
theorem C3_counterexample :
    conversion_to_postfix_expr "a.b.c" = "abc.." ∧
    conversion_to_postfix_expr "a.b.c" ≠ "ab.c." := by
  refine ⟨rfl, by decide⟩

/-- C3 (amended): when a binary operator is read, operators are popped from
the stack and emitted exactly while the stack top's priority is *strictly
less than* the incoming operator's priority (an equal-priority top is *not*
popped), with `'*'`=1, `'.'`=2, `'|'`=3, parentheses=4; in particular a
parenthesis is never popped by this rule, and `"a.b.c"` produces the
right-associative postfix `"abc.."`. -/
theorem C3_pop_while_strictly_greater :
    (∀ (char : Char) (stack : List Char),
      popGreater char stack =
        (stack.takeWhile (fun top => priority_operations top < priority_operations char),
          stack.dropWhile (fun top => priority_operations top < priority_operations char))) ∧
    (∀ stack : List Char,
      ((popGreater '.' stack).1.contains '(' = false) ∧
      ((popGreater '|' stack).1.contains '(' = false)) ∧
    conversion_to_postfix_expr "a.b.c" = "abc.." := by
  refine ⟨popGreater_eq_takeWhile, ?_, rfl⟩
  intro stack
  constructor
  · rw [popGreater_eq_takeWhile]
    by_contra hc
    rw [Bool.not_eq_false, List.contains_eq_any_beq, List.any_eq_true] at hc
    obtain ⟨x, hx, hbeq⟩ := hc
    have hpx := List.mem_takeWhile_imp hx
    have : '(' = x := by simpa using hbeq
    cases this
    simp [priority_operations] at hpx
  · rw [popGreater_eq_takeWhile]
    by_contra hc
    rw [Bool.not_eq_false, List.contains_eq_any_beq, List.any_eq_true] at hc
    obtain ⟨x, hx, hbeq⟩ := hc
    have hpx := List.mem_takeWhile_imp hx
    have : '(' = x := by simpa using hbeq
    cases this
    simp [priority_operations] at hpx

/-! ## C4 -/

/-- The left-nested concatenation `Concat(Concat(a, b), c)` named by the
claim. -/
def leftNestedAst : RegJson :=
  RegJson.binNode "." (RegJson.binNode "." (RegJson.atmNode "atm" 'a') (RegJson.atmNode "atm" 'b'))
    (RegJson.atmNode "atm" 'c')

/-- A representative set of regex ASTs over the four tags, avoiding
left-nested chains of equal-priority binary operators. -/
def representativeAsts : List RegJson :=
  [RegJson.atmNode "atm" 'a',
    RegJson.unNode "*" (RegJson.atmNode "atm" 'a'),
    RegJson.unNode "*" (RegJson.binNode "|" (RegJson.atmNode "atm" 'a') (RegJson.atmNode "atm" 'b')),
    RegJson.unNode "*" (RegJson.binNode "." (RegJson.atmNode "atm" 'a') (RegJson.atmNode "atm" 'b')),
    RegJson.binNode "." (RegJson.atmNode "atm" 'a') (RegJson.atmNode "atm" 'b'),
    RegJson.binNode "|" (RegJson.atmNode "atm" 'a') (RegJson.atmNode "atm" 'b'),
    RegJson.binNode "." (RegJson.atmNode "atm" 'a')
      (RegJson.binNode "." (RegJson.atmNode "atm" 'b') (RegJson.atmNode "atm" 'c')),
    RegJson.binNode "|" (RegJson.atmNode "atm" 'a')
      (RegJson.binNode "|" (RegJson.atmNode "atm" 'b') (RegJson.atmNode "atm" 'c')),
    RegJson.binNode "." (RegJson.binNode "|" (RegJson.atmNode "atm" 'a') (RegJson.atmNode "atm" 'b'))
      (RegJson.atmNode "atm" 'c'),
    RegJson.binNode "." (RegJson.atmNode "atm" 'a')
      (RegJson.binNode "|" (RegJson.atmNode "atm" 'b') (RegJson.atmNode "atm" 'c')),
    RegJson.binNode "." (RegJson.unNode "*" (RegJson.atmNode "atm" 'a')) (RegJson.atmNode "atm" 'b'),
    RegJson.binNode "." (RegJson.atmNode "atm" 'a') (RegJson.unNode "*" (RegJson.atmNode "atm" 'b')),
    RegJson.binNode "|" (RegJson.binNode "." (RegJson.atmNode "atm" 'a') (RegJson.atmNode "atm" 'b'))
      (RegJson.atmNode "atm" 'c'),
    RegJson.binNode "|" (RegJson.atmNode "atm" 'a')
      (RegJson.binNode "." (RegJson.atmNode "atm" 'b') (RegJson.atmNode "atm" 'c')),
    RegJson.binNode "|" (RegJson.unNode "*" (RegJson.atmNode "atm" 'a')) (RegJson.atmNode "atm" 'b'),
    RegJson.binNode "." (RegJson.unNode "*" (RegJson.binNode "|" (RegJson.atmNode "atm" 'a')
      (RegJson.atmNode "atm" 'b'))) (RegJson.unNode "*" (RegJson.atmNode "atm" 'c'))]

/-- C4 (as stated, false): the claim includes left-nested trees such as
`Concat(Concat(a, b), c)` in the round trip.  That tree prints as
`"a.b.c"`, which re-parses right-associatively to
`Concat(a, Concat(b, c))`, not to the original tree. -/
theorem C4_counterexample :
    (conversion_reg_expr_to_str leftNestedAst).bind conversion_reg_expr_to_json =
      some (RegJson.binNode "." (RegJson.atmNode "atm" 'a')
        (RegJson.binNode "." (RegJson.atmNode "atm" 'b') (RegJson.atmNode "atm" 'c'))) ∧
    (conversion_reg_expr_to_str leftNestedAst).bind conversion_reg_expr_to_json ≠
      some leftNestedAst := by
  refine ⟨rfl, by decide⟩

/-- C4 (amended): for every regex AST in a representative set built from the
four tags but *excluding left-nested chains of equal-priority binary
operators* (the parser re-associates such chains to the right, as the
counterexample `Concat(Concat(a, b), c)` shows),
`conversion_reg_expr_to_json (conversion_reg_expr_to_str ast)` is
structurally equal to `ast`. -/
theorem C4_round_trip_representative :
    representativeAsts.all (fun ast =>
      ((conversion_reg_expr_to_str ast).bind conversion_reg_expr_to_json) == some ast) = true := by
  rfl

/-! ## C6 -/

/-- `splitClass` computes exactly the two complementary filters of the
class: members whose transition on `char` lands in `set_states`, and the
rest (members with no transition included). -/
theorem splitClass_eq_filter (m : DFSM) (set_states : List Nat) (char : Char) (s : List Nat) :
    m.splitClass set_states char s =
      (s.filter (fun state =>
          match m._transition state char with
          | none => false
          | some to_state => set_states.contains to_state),
        s.filter (fun state =>
          match m._transition state char with
          | none => true
          | some to_state => ! set_states.contains to_state)) := by
  have go : ∀ (l : List Nat) (acc : List Nat × List Nat),
      l.foldl (fun (acc : List Nat × List Nat) state =>
        match m._transition state char with
        | none => (acc.1, acc.2 ++ [state])
        | some to_state =>
          if set_states.contains to_state then (acc.1 ++ [state], acc.2)
          else (acc.1, acc.2 ++ [state])) acc =
      (acc.1 ++ l.filter (fun state =>
          match m._transition state char with
          | none => false
          | some to_state => set_states.contains to_state),
        acc.2 ++ l.filter (fun state =>
          match m._transition state char with
          | none => true
          | some to_state => ! set_states.contains to_state)) := by
    intro l
    induction l with
    | nil => intro acc; simp
    | cons state rest ih =>
      intro acc
      rw [List.foldl_cons, ih]
      cases htr : m._transition state char with
      | none => simp [htr, List.filter_cons]
      | some to_state =>
        by_cases hc : to_state ∈ set_states
        · simp [htr, hc, List.filter_cons]
        · simp [htr, hc, List.filter_cons]
  simpa [DFSM.splitClass] using go s ([], [])

/-- One step of the `for s in classes` loop at a visited index: the class is
split by `splitClass`; when both halves are non-empty the class is removed
(`classes.remove(s)`), the halves are appended, and both halves are enqueued
with every alphabet symbol; otherwise nothing changes.  Either way the index
moves on by one over the *mutated* list. -/
theorem splitPass_visit (m : DFSM) (set_states : List Nat) (char : Char)
    (fuel n : Nat) (classes : List (List Nat)) (tasks : List (List Nat × Char))
    (s set_fst set_snd : List Nat) (hs : classes[n]? = some s)
    (hsplit : m.splitClass set_states char s = (set_fst, set_snd)) :
    m.splitPass set_states char (fuel + 1) n classes tasks =
      if ¬ set_fst.length = 0 ∧ ¬ set_snd.length = 0 then
        m.splitPass set_states char fuel (n + 1)
          (classes.erase s ++ [set_fst, set_snd])
          (tasks ++ m.alphabet.flatMap (fun c => [(set_fst, c), (set_snd, c)]))
      else m.splitPass set_states char fuel (n + 1) classes tasks := by
  rw [DFSM.splitPass, hs]
  simp only [hsplit]

/-- C6 (as stated, false): on `splitSkipMachine`, `reduce_dfsm` seeds the
partition `[[0,1], [2,3]]` (acceptable then non-acceptable states, first two
conjuncts) and first processes the task `([0,1], 'a')` with the inner fuel
`2 + 2*4 + 4 = 14`.  The class `[2,3]` is present at that moment and both
its halves `[2]` and `[3]` are non-empty, yet after the task the partition
is `[[2,3], [0], [1]]`: `[2,3]` was *not* replaced by its halves (it was
skipped when the split of `[0,1]` shifted it into the visited slot), and no
tasks for `[2]` or `[3]` were enqueued. -/
theorem C6_counterexample :
    splitSkipMachine.acceptable_states = [0, 1] ∧
    (List.range splitSkipMachine.number_states).filter
      (fun i => ¬ splitSkipMachine.acceptable_states.contains i) = [2, 3] ∧
    splitSkipMachine.splitClass [0, 1] 'a' [2, 3] = ([2], [3]) ∧
    splitSkipMachine.splitPass [0, 1] 'a' 14 0 [[0, 1], [2, 3]] [] =
      ([[2, 3], [0], [1]], [([0], 'a'), ([1], 'a')]) := by
  refine ⟨rfl, by decide, by decide, by decide⟩

/-- C6 (amended): when `reduce_dfsm` processes a worklist task
`(S, symbol)`, every class `C` the live iteration *visits* is split into
`C_in` (members whose transition on `symbol` lands in `S`; a state with no
transition counts as not landing) and `C_out`, and when both halves are
non-empty `C` is removed, the two halves are appended to the partition and
each half is enqueued with every alphabet symbol.  Because the iteration is
over the live list, the class shifted into a removed class's slot is *not*
visited during that task (third conjunct: on `splitSkipMachine` the
splittable class `[2,3]` survives the first task), so not every class
present at that moment is split. -/
theorem C6_split_pass_live_iteration :
    (∀ (m : DFSM) (set_states : List Nat) (char : Char) (s : List Nat),
      m.splitClass set_states char s =
        (s.filter (fun state =>
            match m._transition state char with
            | none => false
            | some to_state => set_states.contains to_state),
          s.filter (fun state =>
            match m._transition state char with
            | none => true
            | some to_state => ! set_states.contains to_state))) ∧
    (∀ (m : DFSM) (set_states : List Nat) (char : Char) (fuel n : Nat)
      (classes : List (List Nat)) (tasks : List (List Nat × Char))
      (s set_fst set_snd : List Nat),
      classes[n]? = some s →
      m.splitClass set_states char s = (set_fst, set_snd) →
      m.splitPass set_states char (fuel + 1) n classes tasks =
        if ¬ set_fst.length = 0 ∧ ¬ set_snd.length = 0 then
          m.splitPass set_states char fuel (n + 1)
            (classes.erase s ++ [set_fst, set_snd])
            (tasks ++ m.alphabet.flatMap (fun c => [(set_fst, c), (set_snd, c)]))
        else m.splitPass set_states char fuel (n + 1) classes tasks) ∧
    splitSkipMachine.splitPass [0, 1] 'a' 14 0 [[0, 1], [2, 3]] [] =
      ([[2, 3], [0], [1]], [([0], 'a'), ([1], 'a')]) := by
  refine ⟨splitClass_eq_filter, ?_, by decide⟩
  intro m set_states char fuel n classes tasks s set_fst set_snd hs hsplit
  exact splitPass_visit m set_states char fuel n classes tasks s set_fst set_snd hs hsplit

/-- Witness for `C6_split_pass_live_iteration`: its visit-step equation
applied to the first visited class `[0,1]` of `splitSkipMachine`'s first
worklist task. -/
theorem C6_split_pass_live_iteration_witness :
    splitSkipMachine.splitPass [0, 1] 'a' (13 + 1) 0 [[0, 1], [2, 3]] [] =
      splitSkipMachine.splitPass [0, 1] 'a' 13 1
        (([[0, 1], [2, 3]] : List (List Nat)).erase [0, 1] ++ [[0], [1]])
        ([] ++ splitSkipMachine.alphabet.flatMap (fun c => [([0], c), ([1], c)])) := by
  have h := C6_split_pass_live_iteration.2.1 splitSkipMachine [0, 1] 'a' 13 0
    [[0, 1], [2, 3]] [] [0, 1] [0] [1] (by rfl) (by decide)
  rw [h, if_pos (by decide)]

/-! ## Well-formedness invariants for the Eilenberg construction (C5, C10) -/

/-- Well-formed regex ASTs: exactly the four documented tag shapes. -/
inductive WfReg : RegJson → Prop
  | atm (c : Char) : WfReg (RegJson.atmNode "atm" c)
  | star {e : RegJson} : WfReg e → WfReg (RegJson.unNode "*" e)
  | concat {l r : RegJson} : WfReg l → WfReg r → WfReg (RegJson.binNode "." l r)
  | union {l r : RegJson} : WfReg l → WfReg r → WfReg (RegJson.binNode "|" l r)

/-- Structural invariants maintained by every machine the builder produces. -/
structure EMInv (m : EilenbergMachine) : Prop where
  trans_len : m.transitions_between_states.length = m.number_states
  edge_lt : ∀ row ∈ m.transitions_between_states, ∀ e ∈ row, e.1 < m.number_states
  init_lt : ∀ s ∈ m.initial_states, s < m.number_states
  acc_lt : ∀ s ∈ m.acceptable_states, s < m.number_states
  disj : ∀ s ∈ m.initial_states, s ∉ m.acceptable_states
  init_nodup : m.initial_states.Nodup
  acc_nodup : m.acceptable_states.Nodup

/-- The concatenation's renumbering of the second machine's non-initial
states, in closed form: state `s` is sent past the first machine's states,
offset by how many non-initial states precede it. -/
def concatRemap (machine_fst machine_snd : EilenbergMachine) (s : Nat) : Nat :=
  machine_fst.number_states +
    ((List.range s).filter (fun t => ! machine_snd.initial_states.contains t)).length

/-! ### Generic lemmas about the renumbering dictionaries and folds -/

/-- Looking a key up after a `dictInsert`. -/
theorem lookup_dictInsert (d : List (Nat × Nat)) (k v k' : Nat) :
    (dictInsert d k v).lookup k' = if k' = k then some v else d.lookup k' := by
  induction d with
  | nil =>
    by_cases h : k' = k
    · simp [dictInsert, List.lookup_cons, h]
    · have hba : (k' == k) = false := beq_eq_false_iff_ne.mpr h
      simp [dictInsert, List.lookup_cons, h, hba]
  | cons p t ih =>
    obtain ⟨a, b⟩ := p
    by_cases hak : a = k
    · subst hak
      have hd : dictInsert ((a, b) :: t) a v = dictInsert t a v := by
        simp [dictInsert, List.filter_cons]
      rw [hd, ih]
      by_cases h : k' = a
      · simp [h]
      · have hba : (k' == a) = false := beq_eq_false_iff_ne.mpr h
        simp [List.lookup_cons, h, hba]
    · have hd : dictInsert ((a, b) :: t) k v = (a, b) :: dictInsert t k v := by
        simp [dictInsert, List.filter_cons, hak]
      rw [hd, List.lookup_cons, ih]
      by_cases h : k' = a
      · subst h
        have hkk : ¬ k' = k := hak
        simp [List.lookup_cons, hkk]
      · have hba : (k' == a) = false := beq_eq_false_iff_ne.mpr h
        by_cases hk : k' = k
        · subst hk
          simp [List.lookup_cons, hba]
        · simp [List.lookup_cons, hba, hk]

/-- Proof-side abbreviation for the renumbering folds of
`eliminate_unreachable_states` and `_build_Eilenberg_machine_oper_concat`:
scan the states `0 .. N-1` in order and give each state satisfying `keep`
the next number, starting from `base`. -/
def renumber_fold (keep : Nat → Bool) (base N : Nat) : List (Nat × Nat) × Nat :=
  (List.range N).foldl
    (fun (acc : List (Nat × Nat) × Nat) s =>
      if keep s then (dictInsert acc.1 s acc.2, acc.2 + 1) else acc)
    ([], base)

/-- How many of `0 .. k-1` satisfy `keep`. -/
def keepCount (keep : Nat → Bool) (k : Nat) : Nat :=
  ((List.range k).filter keep).length

theorem renumber_fold_succ (keep : Nat → Bool) (base N : Nat) :
    renumber_fold keep base (N + 1) =
      if keep N then
        (dictInsert (renumber_fold keep base N).1 N (renumber_fold keep base N).2,
          (renumber_fold keep base N).2 + 1)
      else renumber_fold keep base N := by
  rw [renumber_fold, List.range_succ, List.foldl_append]
  rfl

theorem keepCount_succ (keep : Nat → Bool) (N : Nat) :
    keepCount keep (N + 1) = keepCount keep N + if keep N then 1 else 0 := by
  by_cases h : keep N <;>
    simp [keepCount, List.range_succ, List.filter_append, List.filter_cons, h]

theorem keepCount_le (keep : Nat → Bool) {k N : Nat} (h : k ≤ N) :
    keepCount keep k ≤ keepCount keep N := by
  induction N with
  | zero => simp_all
  | succ n ih =>
    rcases Nat.lt_or_ge k (n + 1) with hlt | hge
    · have := ih (Nat.lt_succ_iff.mp hlt)
      rw [keepCount_succ]
      omega
    · have : k = n + 1 := Nat.le_antisymm h hge
      simp [this]

theorem keepCount_lt (keep : Nat → Bool) {k N : Nat} (hk : k < N) (hkeep : keep k = true) :
    keepCount keep k < keepCount keep N := by
  have h1 : keepCount keep (k + 1) = keepCount keep k + 1 := by
    simp [keepCount_succ, hkeep]
  have h2 : keepCount keep (k + 1) ≤ keepCount keep N := keepCount_le keep hk
  omega

theorem renumber_fold_counter (keep : Nat → Bool) (base : Nat) :
    ∀ N, (renumber_fold keep base N).2 = base + keepCount keep N := by
  intro N
  induction N with
  | zero => simp [renumber_fold, keepCount]
  | succ n ih =>
    rw [renumber_fold_succ, keepCount_succ]
    by_cases h : keep n
    · simp [h, ih]
      omega
    · simp [h, ih]

theorem renumber_fold_lookup (keep : Nat → Bool) (base : Nat) :
    ∀ N k, (renumber_fold keep base N).1.lookup k =
      if k < N ∧ keep k = true then some (base + keepCount keep k) else none := by
  intro N
  induction N with
  | zero => intro k; simp [renumber_fold, List.lookup]
  | succ n ih =>
    intro k
    rw [renumber_fold_succ]
    by_cases h : keep n
    · simp only [h, if_true]
      rw [lookup_dictInsert]
      by_cases hk : k = n
      · subst hk
        rw [renumber_fold_counter]
        simp [h, Nat.lt_succ_iff]
      · rw [ih k]
        by_cases hlt : k < n
        · have : k < n + 1 := Nat.lt_succ_of_lt hlt
          simp [hlt, this, hk]
        · have : ¬ k < n + 1 := by omega
          simp [hlt, this, hk]
    · have hf : keep n = false := by simpa using h
      simp only [hf, Bool.false_eq_true, if_false]
      rw [ih k]
      by_cases hk : k = n
      · subst hk
        simp [h, Nat.lt_irrefl]
      · by_cases hlt : k < n
        · have : k < n + 1 := Nat.lt_succ_of_lt hlt
          simp [hlt, this]
        · have : ¬ k < n + 1 := by omega
          simp [hlt, this]

/-! ### Generic helpers for the option-valued builder folds -/

theorem foldlM_option_invariant {α β : Type} (P : β → Prop) (f : β → α → Option β)
    (l : List α) :
    ∀ b, P b → (∀ b' a, a ∈ l → P b' → ∃ b'', f b' a = some b'' ∧ P b'') →
      ∃ r, l.foldlM f b = some r ∧ P r := by
  induction l with
  | nil => intro b hb _; exact ⟨b, rfl, hb⟩
  | cons a t ih =>
    intro b hb hstep
    obtain ⟨b', hfb, hb'⟩ := hstep b a (List.mem_cons_self a t) hb
    obtain ⟨r, hr, hPr⟩ := ih b' hb' (fun b'' x hx => hstep b'' x (List.mem_cons_of_mem a hx))
    exact ⟨r, by rw [List.foldlM_cons, hfb]; simpa using hr, hPr⟩

theorem mapM_option_eq_some {α β : Type} (f : α → Option β) (g : α → β) (l : List α)
    (h : ∀ a ∈ l, f a = some (g a)) : l.mapM f = some (l.map g) := by
  induction l with
  | nil => rfl
  | cons a t ih =>
    rw [List.mapM_cons, h a (List.mem_cons_self a t),
      ih (fun x hx => h x (List.mem_cons_of_mem a hx))]
    rfl

theorem foldl_invariant {α β : Type} (P : β → Prop) (f : β → α → β) (l : List α) :
    ∀ b, P b → (∀ b' a, a ∈ l → P b' → P (f b' a)) → P (l.foldl f b) := by
  induction l with
  | nil => intro b hb _; exact hb
  | cons a t ih =>
    intro b hb hstep
    exact ih (f b a) (hstep b a (List.mem_cons_self a t) hb)
      (fun b' x hx => hstep b' x (List.mem_cons_of_mem a hx))

/-! ### Lemmas about `appendAt` -/

theorem appendAt_length {α : Type} (t : List (List α)) (i : Nat) (x : α) :
    (appendAt t i x).length = t.length := by
  simp [appendAt]

theorem appendAt_edge_bound {α : Type} (Q : α → Prop) {t : List (List α)} {i : Nat} {x : α}
    (ht : ∀ row ∈ t, ∀ e ∈ row, Q e) (hx : Q x) :
    ∀ row ∈ appendAt t i x, ∀ e ∈ row, Q e := by
  intro row hrow e he
  rcases List.mem_or_eq_of_mem_set hrow with hmem | heq
  · exact ht row hmem e he
  · subst heq
    rcases List.mem_append.mp he with h1 | h2
    · by_cases hlen : i < t.length
      · have : t.getD i [] = t[i] := by
          simp [List.getD_eq_getElem?_getD, List.getElem?_eq_getElem hlen]
        rw [this] at h1
        exact ht _ (List.getElem_mem hlen) e h1
      · have : t.getD i [] = [] := by
          simp [List.getD_eq_getElem?_getD, List.getElem?_eq_none (Nat.le_of_not_lt hlen)]
        rw [this] at h1
        cases h1
    · have : e = x := by simpa using h2
      subst this
      exact hx

/-! ### Edge bounds through the star construction -/

theorem starLoopEdges_edge_bound (acc init : List Nat) (n : Nat)
    (hinit : ∀ s ∈ init, s < n) :
    ∀ fuel (edges : List (Nat × Char)) i, (∀ e ∈ edges, e.1 < n) →
      ∀ e ∈ starLoopEdges acc init fuel edges i, e.1 < n := by
  intro fuel
  induction fuel with
  | zero =>
    intro edges i hedges e he
    rw [starLoopEdges] at he
    rcases hget : edges[i]? with _ | p
    · rw [hget] at he; exact hedges e he
    · obtain ⟨st, ch⟩ := p
      rw [hget] at he
      exact hedges e he
  | succ fuel ih =>
    intro edges i hedges e he
    rw [starLoopEdges] at he
    rcases hget : edges[i]? with _ | p
    · rw [hget] at he; exact hedges e he
    · obtain ⟨st, ch⟩ := p
      rw [hget] at he
      by_cases hacc : acc.contains st
      · simp only [hacc, if_true] at he
        refine ih _ _ ?_ e he
        intro e' he'
        rcases List.mem_append.mp he' with h1 | h2
        · exact hedges e' h1
        · obtain ⟨s0, hs0, hmap⟩ := List.mem_map.mp h2
          rw [← hmap]
          exact hinit s0 hs0
      · simp only [hacc, Bool.false_eq_true, if_false] at he
        exact ih _ _ hedges e he

theorem length_filter_bool_split {α : Type} (p : α → Bool) (l : List α) :
    (l.filter p).length + (l.filter (fun a => ! p a)).length = l.length := by
  induction l with
  | nil => rfl
  | cons a t ih =>
    by_cases h : p a <;> simp [List.filter_cons, h] <;> omega

theorem length_filter_contains (init : List Nat) (N : Nat)
    (hsub : ∀ s ∈ init, s < N) (hnd : init.Nodup) :
    ((List.range N).filter (fun s => init.contains s)).length = init.length := by
  have h1 : ((List.range N).filter (fun s => init.contains s)).toFinset = init.toFinset := by
    ext x
    simp only [List.mem_toFinset, List.mem_filter, List.mem_range]
    constructor
    · rintro ⟨_, hx⟩
      exact List.elem_iff.mp hx
    · intro hx
      exact ⟨hsub x hx, List.elem_iff.mpr hx⟩
  have hnd1 : ((List.range N).filter (fun s => init.contains s)).Nodup :=
    (List.nodup_range N).filter _
  rw [← List.toFinset_card_of_nodup hnd1, ← List.toFinset_card_of_nodup hnd, h1]

/-- Among `0 .. N-1`, the states not in a duplicate-free in-range `init`
list number `N - init.length`. -/
theorem keepCount_not_contains (init : List Nat) (N : Nat)
    (hsub : ∀ s ∈ init, s < N) (hnd : init.Nodup) :
    keepCount (fun s => ! init.contains s) N = N - init.length := by
  have hsplit := length_filter_bool_split (fun s => init.contains s) (List.range N)
  have hlen := length_filter_contains init N hsub hnd
  have hr : (List.range N).length = N := List.length_range N
  unfold keepCount
  omega

/-! ### Invariants of the four machine constructors -/

theorem atom_inv (c : Char) : EMInv ⟨2, [[(1, c)], []], [0], [1]⟩ := by
  refine ⟨rfl, ?_, ?_, ?_, ?_, by simp, by simp⟩
  · intro row hrow e he
    simp only [List.mem_cons, List.not_mem_nil, or_false] at hrow
    rcases hrow with h | h
    · subst h
      simp only [List.mem_cons, List.not_mem_nil, or_false] at he
      subst he
      simp
    · subst h
      exact absurd he (List.not_mem_nil e)
  · intro s hs
    simp only [List.mem_cons, List.not_mem_nil, or_false] at hs
    subst hs
    simp
  · intro s hs
    simp only [List.mem_cons, List.not_mem_nil, or_false] at hs
    subst hs
    simp
  · intro s hs
    simp only [List.mem_cons, List.not_mem_nil, or_false] at hs
    subst hs
    simp

theorem asterisk_inv (m : EilenbergMachine) (hm : EMInv m) :
    EMInv (_build_Eilenberg_machine_oper_asterisk m) := by
  refine ⟨?_, ?_, hm.init_lt, hm.acc_lt, hm.disj, hm.init_nodup, hm.acc_nodup⟩
  · simp [_build_Eilenberg_machine_oper_asterisk]
  · intro row hrow e he
    simp only [_build_Eilenberg_machine_oper_asterisk, List.mem_map, List.mem_range] at hrow
    obtain ⟨s, hs, hrow'⟩ := hrow
    subst hrow'
    refine starLoopEdges_edge_bound m.acceptable_states m.initial_states m.number_states
      hm.init_lt _ _ _ ?_ e he
    intro e' he'
    have hslen : s < m.transitions_between_states.length := by
      rw [hm.trans_len]; exact hs
    have hget : m.transitions_between_states.getD s [] = m.transitions_between_states[s] := by
      simp [List.getD_eq_getElem?_getD, List.getElem?_eq_getElem hslen]
    rw [hget] at he'
    exact hm.edge_lt _ (List.getElem_mem hslen) e' he'

theorem or_inv (a b : EilenbergMachine) (ha : EMInv a) (hb : EMInv b) :
    EMInv (_build_Eilenberg_machine_oper_or a b) := by
  have hN : (_build_Eilenberg_machine_oper_or a b).number_states
      = a.number_states + b.number_states := rfl
  have hInit : (_build_Eilenberg_machine_oper_or a b).initial_states
      = a.initial_states ++ b.initial_states.map (· + a.number_states) := rfl
  have hAcc : (_build_Eilenberg_machine_oper_or a b).acceptable_states
      = a.acceptable_states ++ b.acceptable_states.map (· + a.number_states) := rfl
  have hTrans : (_build_Eilenberg_machine_oper_or a b).transitions_between_states
      = (List.range b.number_states).foldl
          (fun t s => (b.transitions_between_states.getD s []).foldl
            (fun t (e : Nat × Char) =>
              appendAt t (s + a.number_states) (e.1 + a.number_states, e.2)) t)
          (a.transitions_between_states ++ List.replicate b.number_states []) := rfl
  constructor
  · -- length
    rw [hTrans, hN]
    have := foldl_invariant (fun (t : List (List (Nat × Char))) =>
        t.length = a.number_states + b.number_states)
      (fun t s => (b.transitions_between_states.getD s []).foldl
        (fun t (e : Nat × Char) =>
          appendAt t (s + a.number_states) (e.1 + a.number_states, e.2)) t)
      (List.range b.number_states)
      (a.transitions_between_states ++ List.replicate b.number_states [])
      (by simp [ha.trans_len])
      ?_
    · exact this
    · intro t s _ ht
      refine foldl_invariant (fun (t : List (List (Nat × Char))) =>
          t.length = a.number_states + b.number_states) _ _ t ht ?_
      intro t' e _ ht'
      rw [appendAt_length]
      exact ht'
  · -- edge bounds
    rw [hTrans, hN]
    have := foldl_invariant (fun (t : List (List (Nat × Char))) =>
        ∀ row ∈ t, ∀ e ∈ row, e.1 < a.number_states + b.number_states)
      (fun t s => (b.transitions_between_states.getD s []).foldl
        (fun t (e : Nat × Char) =>
          appendAt t (s + a.number_states) (e.1 + a.number_states, e.2)) t)
      (List.range b.number_states)
      (a.transitions_between_states ++ List.replicate b.number_states [])
      ?_ ?_
    · exact this
    · intro row hrow e he
      rcases List.mem_append.mp hrow with h1 | h2
      · have := ha.edge_lt row h1 e he
        omega
      · have : row = [] := List.eq_of_mem_replicate h2
        subst this
        cases he
    · intro t s hs ht
      refine foldl_invariant (fun (t : List (List (Nat × Char))) =>
          ∀ row ∈ t, ∀ e ∈ row, e.1 < a.number_states + b.number_states) _ _ t ht ?_
      intro t' e he ht'
      refine appendAt_edge_bound _ ht' ?_
      have hsb : s < b.number_states := List.mem_range.mp hs
      have hsl : s < b.transitions_between_states.length := by rw [hb.trans_len]; exact hsb
      have hget : b.transitions_between_states.getD s [] = b.transitions_between_states[s] := by
        simp [List.getD_eq_getElem?_getD, List.getElem?_eq_getElem hsl]
      rw [hget] at he
      have := hb.edge_lt _ (List.getElem_mem hsl) e he
      simp only []
      omega
  · -- initial states in range
    rw [hInit, hN]
    intro s hs
    rcases List.mem_append.mp hs with h1 | h2
    · have := ha.init_lt s h1
      omega
    · obtain ⟨s0, hs0, hmap⟩ := List.mem_map.mp h2
      have := hb.init_lt s0 hs0
      omega
  · -- acceptable states in range
    rw [hAcc, hN]
    intro s hs
    rcases List.mem_append.mp hs with h1 | h2
    · have := ha.acc_lt s h1
      omega
    · obtain ⟨s0, hs0, hmap⟩ := List.mem_map.mp h2
      have := hb.acc_lt s0 hs0
      omega
  · -- disjointness
    rw [hInit, hAcc]
    intro s hs hmem
    rcases List.mem_append.mp hs with h1 | h2
    · rcases List.mem_append.mp hmem with g1 | g2
      · exact ha.disj s h1 g1
      · obtain ⟨s0, hs0, hmap⟩ := List.mem_map.mp g2
        have h1' := ha.init_lt s h1
        have := hb.acc_lt s0 hs0
        omega
    · obtain ⟨s0, hs0, hmap⟩ := List.mem_map.mp h2
      rcases List.mem_append.mp hmem with g1 | g2
      · have := ha.acc_lt s g1
        have := hb.init_lt s0 hs0
        omega
      · obtain ⟨s1, hs1, hmap1⟩ := List.mem_map.mp g2
        have : s0 = s1 := by omega
        subst this
        exact hb.disj s0 hs0 hs1
  · -- initial nodup
    rw [hInit]
    refine List.Nodup.append ha.init_nodup ?_ ?_
    · exact hb.init_nodup.map (fun x y hxy => by omega)
    · intro x hx1 hx2
      obtain ⟨s0, hs0, hmap⟩ := List.mem_map.mp hx2
      have := ha.init_lt x hx1
      omega
  · -- acceptable nodup
    rw [hAcc]
    refine List.Nodup.append ha.acc_nodup ?_ ?_
    · exact hb.acc_nodup.map (fun x y hxy => by omega)
    · intro x hx1 hx2
      obtain ⟨s0, hs0, hmap⟩ := List.mem_map.mp hx2
      have := ha.acc_lt x hx1
      omega

theorem contains_eq_false_of_not_mem {l : List Nat} {s : Nat} (h : s ∉ l) :
    l.contains s = false := by
  cases hx : l.contains s
  · rfl
  · exact absurd (List.elem_iff.mp hx) h

theorem concat_spec (a b : EilenbergMachine) (ha : EMInv a) (hb : EMInv b) :
    ∃ res, _build_Eilenberg_machine_oper_concat a b = some res ∧
      res.number_states = a.number_states + b.number_states - b.initial_states.length ∧
      res.initial_states = a.initial_states ∧
      res.acceptable_states = b.acceptable_states.map (concatRemap a b) ∧
      EMInv res := by
  have hkeep_iff : ∀ s, (! b.initial_states.contains s) = true ↔ s ∉ b.initial_states := by
    intro s
    by_cases hmem : s ∈ b.initial_states
    · have hc : b.initial_states.contains s = true := List.elem_iff.mpr hmem
      simp [hc, hmem]
    · have hc : b.initial_states.contains s = false := contains_eq_false_of_not_mem hmem
      simp [hc, hmem]
  have hILen : b.initial_states.length ≤ b.number_states := by
    have h1 := length_filter_contains b.initial_states b.number_states hb.init_lt hb.init_nodup
    have h2 := List.length_filter_le (fun s => b.initial_states.contains s)
      (List.range b.number_states)
    rw [List.length_range] at h2
    omega
  have hKC : keepCount (fun s => ! b.initial_states.contains s) b.number_states
      = b.number_states - b.initial_states.length :=
    keepCount_not_contains b.initial_states b.number_states hb.init_lt hb.init_nodup
  have hBound : ∀ k, k < b.number_states → k ∉ b.initial_states →
      a.number_states + keepCount (fun s => ! b.initial_states.contains s) k
        < a.number_states + b.number_states - b.initial_states.length := by
    intro k hk hkin
    have hkt : (! b.initial_states.contains k) = true := (hkeep_iff k).mpr hkin
    have := keepCount_lt (fun s => ! b.initial_states.contains s) hk hkt
    omega
  have hlook : ∀ k, k < b.number_states → k ∉ b.initial_states →
      (renumber_fold (fun s => ! b.initial_states.contains s) a.number_states
        b.number_states).1.lookup k =
        some (a.number_states + keepCount (fun s => ! b.initial_states.contains s) k) := by
    intro k hk hkin
    have hkt : (! b.initial_states.contains k) = true := (hkeep_iff k).mpr hkin
    rw [renumber_fold_lookup]
    simp [hk, hkt, hkin]
  have hfold_eq : ((List.range b.number_states).foldl
      (fun (acc : List (Nat × Nat) × Nat) s =>
        if b.initial_states.contains s then acc
        else (dictInsert acc.1 s acc.2, acc.2 + 1))
      ([], a.number_states)) =
      renumber_fold (fun s => ! b.initial_states.contains s) a.number_states b.number_states := by
    unfold renumber_fold
    congr 1
    funext acc s
    by_cases hmem : s ∈ b.initial_states
    · have hc : b.initial_states.contains s = true := List.elem_iff.mpr hmem
      simp [hc]
    · have hc : b.initial_states.contains s = false := contains_eq_false_of_not_mem hmem
      simp [hc]
  have hrowmem : ∀ s, s < b.number_states →
      ∀ e ∈ b.transitions_between_states.getD s [], e.1 < b.number_states := by
    intro s hs e he
    have hsl : s < b.transitions_between_states.length := by rw [hb.trans_len]; exact hs
    have hget : b.transitions_between_states.getD s [] = b.transitions_between_states[s] := by
      simp [List.getD_eq_getElem?_getD, List.getElem?_eq_getElem hsl]
    rw [hget] at he
    exact hb.edge_lt _ (List.getElem_mem hsl) e he
  obtain ⟨t, hT, hTlen, hTbound⟩ :
      ∃ t, ((List.range b.number_states).foldlM
        (fun t s => (b.transitions_between_states.getD s []).foldlM
          (fun t e =>
            concatEdgeCase a.acceptable_states b.initial_states
              (renumber_fold (fun s => ! b.initial_states.contains s) a.number_states
                b.number_states).1 t s e) t)
        (a.transitions_between_states ++
          List.replicate (b.number_states - b.initial_states.length) [])) = some t ∧
        t.length = a.number_states + b.number_states - b.initial_states.length ∧
        (∀ row ∈ t, ∀ e ∈ row, e.1 < a.number_states + b.number_states -
          b.initial_states.length) := by
    have hmain := foldlM_option_invariant
      (fun (t : List (List (Nat × Char))) =>
        t.length = a.number_states + b.number_states - b.initial_states.length ∧
        ∀ row ∈ t, ∀ e ∈ row, e.1 < a.number_states + b.number_states - b.initial_states.length)
      (fun t s => (b.transitions_between_states.getD s []).foldlM
        (fun t e =>
          concatEdgeCase a.acceptable_states b.initial_states
            (renumber_fold (fun s => ! b.initial_states.contains s) a.number_states
              b.number_states).1 t s e) t)
      (List.range b.number_states)
      (a.transitions_between_states ++
        List.replicate (b.number_states - b.initial_states.length) [])
      ?_ ?_
    · obtain ⟨r, hr, hr1, hr2⟩ := hmain
      exact ⟨r, hr, hr1, hr2⟩
    · constructor
      · simp [ha.trans_len]
        omega
      · intro row hrow e he
        rcases List.mem_append.mp hrow with h1 | h2
        · have := ha.edge_lt row h1 e he
          omega
        · have : row = [] := List.eq_of_mem_replicate h2
          subst this
          cases he
    · intro t0 s hs ht0
      have hsN : s < b.number_states := List.mem_range.mp hs
      refine foldlM_option_invariant
        (fun (t : List (List (Nat × Char))) =>
          t.length = a.number_states + b.number_states - b.initial_states.length ∧
          ∀ row ∈ t, ∀ e ∈ row, e.1 < a.number_states + b.number_states -
            b.initial_states.length)
        _ _ t0 ht0 ?_
      intro t1 e he ht1
      have heb : e.1 < b.number_states := hrowmem s hsN e he
      obtain ⟨state, character⟩ := e
      simp only at heb
      have hstep_append : ∀ (t2 : List (List (Nat × Char))) (i : Nat) (x : Nat × Char),
          (t2.length = a.number_states + b.number_states - b.initial_states.length ∧
            ∀ row ∈ t2, ∀ e ∈ row, e.1 < a.number_states + b.number_states -
              b.initial_states.length) →
          x.1 < a.number_states + b.number_states - b.initial_states.length →
          ((appendAt t2 i x).length = a.number_states + b.number_states -
              b.initial_states.length ∧
            ∀ row ∈ appendAt t2 i x, ∀ e ∈ row, e.1 < a.number_states + b.number_states -
              b.initial_states.length) := by
        intro t2 i x ht2 hx
        refine ⟨by rw [appendAt_length]; exact ht2.1, ?_⟩
        exact appendAt_edge_bound _ ht2.2 hx
      have hacc_fold : ∀ (t2 : List (List (Nat × Char))) (tgt : Nat),
          (t2.length = a.number_states + b.number_states - b.initial_states.length ∧
            ∀ row ∈ t2, ∀ e ∈ row, e.1 < a.number_states + b.number_states -
              b.initial_states.length) →
          tgt < a.number_states + b.number_states - b.initial_states.length →
          ((a.acceptable_states.foldl
              (fun t act_s => appendAt t act_s (tgt, character)) t2).length =
              a.number_states + b.number_states - b.initial_states.length ∧
            ∀ row ∈ a.acceptable_states.foldl
              (fun t act_s => appendAt t act_s (tgt, character)) t2,
              ∀ e ∈ row, e.1 < a.number_states + b.number_states -
                b.initial_states.length) := by
        intro t2 tgt ht2 htgt
        refine foldl_invariant
          (fun (t : List (List (Nat × Char))) =>
            t.length = a.number_states + b.number_states - b.initial_states.length ∧
            ∀ row ∈ t, ∀ e ∈ row, e.1 < a.number_states + b.number_states -
              b.initial_states.length) _ _ t2 ht2 ?_
        intro t3 act_s _ ht3
        exact hstep_append t3 act_s (tgt, character) ht3 htgt
      have hself_fold : ∀ (t2 : List (List (Nat × Char))),
          (t2.length = a.number_states + b.number_states - b.initial_states.length ∧
            ∀ row ∈ t2, ∀ e ∈ row, e.1 < a.number_states + b.number_states -
              b.initial_states.length) →
          ((a.acceptable_states.foldl
              (fun t act_s => appendAt t act_s (act_s, character)) t2).length =
              a.number_states + b.number_states - b.initial_states.length ∧
            ∀ row ∈ a.acceptable_states.foldl
              (fun t act_s => appendAt t act_s (act_s, character)) t2,
              ∀ e ∈ row, e.1 < a.number_states + b.number_states -
                b.initial_states.length) := by
        intro t2 ht2
        refine foldl_invariant
          (fun (t : List (List (Nat × Char))) =>
            t.length = a.number_states + b.number_states - b.initial_states.length ∧
            ∀ row ∈ t, ∀ e ∈ row, e.1 < a.number_states + b.number_states -
              b.initial_states.length) _ _ t2 ht2 ?_
        intro t3 act_s hacts ht3
        refine hstep_append t3 act_s (act_s, character) ht3 ?_
        show act_s < _
        have := ha.acc_lt act_s hacts
        omega
      by_cases hcs : s ∈ b.initial_states
      · have hcs' : b.initial_states.contains s = true := List.elem_iff.mpr hcs
        by_cases hct : state ∈ b.initial_states
        · have hct' : b.initial_states.contains state = true := List.elem_iff.mpr hct
          refine ⟨a.acceptable_states.foldl
              (fun t act_s => appendAt t act_s (act_s, character)) t1, ?_, ?_⟩
          · simp only [concatEdgeCase]
            rw [if_neg (by simp [hcs, hct]), if_pos (by simp [hcs, hct])]
          · exact hself_fold t1 ht1
        · have hct' : b.initial_states.contains state = false :=
            contains_eq_false_of_not_mem hct
          refine ⟨a.acceptable_states.foldl
              (fun t act_s => appendAt t act_s
                (a.number_states +
                  keepCount (fun s => ! b.initial_states.contains s) state, character)) t1,
              ?_, ?_⟩
          · simp only [concatEdgeCase]
            rw [if_pos (by simp [hcs, hct]), hlook state heb hct]
            rfl
          · refine hacc_fold t1 _ ht1 ?_
            exact hBound state heb hct
      · have hcs' : b.initial_states.contains s = false := contains_eq_false_of_not_mem hcs
        by_cases hct : state ∈ b.initial_states
        · have hct' : b.initial_states.contains state = true := List.elem_iff.mpr hct
          refine ⟨a.acceptable_states.foldl
              (fun t act_s => appendAt t
                (a.number_states + keepCount (fun s => ! b.initial_states.contains s) s)
                (act_s, character)) t1, ?_, ?_⟩
          · simp only [concatEdgeCase]
            rw [if_neg (by simp [hcs]), if_neg (by simp [hcs]),
              if_pos (by simp [hcs, hct]), hlook s hsN hcs]
            rfl
          · refine foldl_invariant
              (fun (t : List (List (Nat × Char))) =>
                t.length = a.number_states + b.number_states - b.initial_states.length ∧
                ∀ row ∈ t, ∀ e ∈ row, e.1 < a.number_states + b.number_states -
                  b.initial_states.length) _ _ t1 ht1 ?_
            intro t3 act_s hacts ht3
            refine hstep_append t3 _ (act_s, character) ht3 ?_
            show act_s < _
            have := ha.acc_lt act_s hacts
            omega
        · have hct' : b.initial_states.contains state = false :=
            contains_eq_false_of_not_mem hct
          refine ⟨appendAt t1
              (a.number_states + keepCount (fun s => ! b.initial_states.contains s) s)
              (a.number_states + keepCount (fun s => ! b.initial_states.contains s) state,
                character), ?_, ?_⟩
          · simp only [concatEdgeCase]
            rw [if_neg (by simp [hcs]), if_neg (by simp [hcs]), if_neg (by simp [hct]),
              hlook s hsN hcs, hlook state heb hct]
            rfl
          · refine hstep_append t1 _ _ ht1 ?_
            show a.number_states + keepCount (fun s => ! b.initial_states.contains s) state < _
            exact hBound state heb hct
  have hmap : (b.acceptable_states.mapM (fun s =>
      (renumber_fold (fun s => ! b.initial_states.contains s) a.number_states
        b.number_states).1.lookup s)) = some (b.acceptable_states.map (concatRemap a b)) := by
    refine mapM_option_eq_some _ _ _ ?_
    intro s hs
    have hsN : s < b.number_states := hb.acc_lt s hs
    have hsin : s ∉ b.initial_states := fun hmem => hb.disj s hmem hs
    rw [hlook s hsN hsin]
    rfl
  refine ⟨⟨a.number_states + b.number_states - b.initial_states.length, t,
    a.initial_states, b.acceptable_states.map (concatRemap a b)⟩, ?_, rfl, rfl, rfl, ?_⟩
  · unfold _build_Eilenberg_machine_oper_concat
    rw [hfold_eq]
    dsimp only
    rw [hT, hmap]
    rfl
  · refine ⟨hTlen, hTbound, ?_, ?_, ?_, ha.init_nodup, ?_⟩
    · intro s hs
      show s < a.number_states + b.number_states - b.initial_states.length
      have := ha.init_lt s hs
      omega
    · intro s hs
      show s < a.number_states + b.number_states - b.initial_states.length
      obtain ⟨s0, hs0, hmap0⟩ := List.mem_map.mp hs
      have hs0N : s0 < b.number_states := hb.acc_lt s0 hs0
      have hs0in : s0 ∉ b.initial_states := fun hmem => hb.disj s0 hmem hs0
      have hb0 := hBound s0 hs0N hs0in
      have hcr : concatRemap a b s0 =
          a.number_states + keepCount (fun s => ! b.initial_states.contains s) s0 := rfl
      omega
    · intro s hs hmem
      obtain ⟨s0, hs0, hmap0⟩ := List.mem_map.mp hmem
      have h1 := ha.init_lt s hs
      have h2 : a.number_states ≤ concatRemap a b s0 := Nat.le_add_right _ _
      omega
    · refine List.Nodup.map_on ?_ hb.acc_nodup
      intro x hx y hy hxy
      by_contra hne
      have hxN : x < b.number_states := hb.acc_lt x hx
      have hyN : y < b.number_states := hb.acc_lt y hy
      have hxin : x ∉ b.initial_states := fun hmem => hb.disj x hmem hx
      have hyin : y ∉ b.initial_states := fun hmem => hb.disj y hmem hy
      have hcrx : concatRemap a b x =
          a.number_states + keepCount (fun s => ! b.initial_states.contains s) x := rfl
      have hcry : concatRemap a b y =
          a.number_states + keepCount (fun s => ! b.initial_states.contains s) y := rfl
      rcases Nat.lt_or_ge x y with hlt | hge
      · have := keepCount_lt (fun s => ! b.initial_states.contains s) hlt
          ((hkeep_iff x).mpr hxin)
        omega
      · rcases Nat.lt_or_ge y x with hlt' | hge'
        · have := keepCount_lt (fun s => ! b.initial_states.contains s) hlt'
            ((hkeep_iff y).mpr hyin)
          omega
        · exact hne (Nat.le_antisymm hge' hge)

/-- On every well-formed regex AST the builder succeeds and returns a
machine satisfying the structural invariants. -/
theorem get_Eilenberg_machine_wf : ∀ {e : RegJson}, WfReg e →
    ∃ m, get_Eilenberg_machine e = some m ∧ EMInv m := by
  intro e h
  induction h with
  | atm c => exact ⟨_, rfl, atom_inv c⟩
  | @star e0 he ih =>
    obtain ⟨m0, hm0, inv0⟩ := ih
    refine ⟨_build_Eilenberg_machine_oper_asterisk m0, ?_, asterisk_inv m0 inv0⟩
    have hu : get_Eilenberg_machine (RegJson.unNode "*" e0) =
        (get_Eilenberg_machine e0).map _build_Eilenberg_machine_oper_asterisk := rfl
    rw [hu, hm0]
    rfl
  | @concat l r hl hr ihl ihr =>
    obtain ⟨ma, hma, inva⟩ := ihl
    obtain ⟨mb, hmb, invb⟩ := ihr
    obtain ⟨res, hres, _, _, _, invres⟩ := concat_spec ma mb inva invb
    refine ⟨res, ?_, invres⟩
    have hu : get_Eilenberg_machine (RegJson.binNode "." l r) = (do
        let machine_fst ← get_Eilenberg_machine l
        let machine_snd ← get_Eilenberg_machine r
        _build_Eilenberg_machine_oper_concat machine_fst machine_snd) := rfl
    rw [hu, hma, hmb]
    exact hres
  | @union l r hl hr ihl ihr =>
    obtain ⟨ma, hma, inva⟩ := ihl
    obtain ⟨mb, hmb, invb⟩ := ihr
    refine ⟨_build_Eilenberg_machine_oper_or ma mb, ?_, or_inv ma mb inva invb⟩
    have hu : get_Eilenberg_machine (RegJson.binNode "|" l r) = (do
        let machine_fst ← get_Eilenberg_machine l
        let machine_snd ← get_Eilenberg_machine r
        some (_build_Eilenberg_machine_oper_or machine_fst machine_snd)) := rfl
    rw [hu, hma, hmb]
    rfl

/-- A queue all of whose items carry an exhausted input and a non-acceptable
state drives `acceptLoop` to `False`, whatever the fuel. -/
theorem acceptLoop_false (m : EilenbergMachine) :
    ∀ (q : List (Nat × List Char)), (∀ it ∈ q, it.2 = ([] : List Char) ∧
      it.1 ∉ m.acceptable_states) → ∀ fuel, acceptLoop m fuel q = false := by
  intro q
  induction q with
  | nil =>
    intro _ fuel
    rw [acceptLoop]
  | cons it rest ih =>
    intro hq fuel
    obtain ⟨st, ex⟩ := it
    have h1 := hq (st, ex) (List.mem_cons_self _ _)
    have hex : ex = [] := h1.1
    subst hex
    cases fuel with
    | zero => rw [acceptLoop]
    | succ f =>
      rw [acceptLoop]
      have hc : m.acceptable_states.contains st = false :=
        contains_eq_false_of_not_mem h1.2
      simp only [hc, Bool.false_eq_true, if_false]
      exact ih (fun x hx => hq x (List.mem_cons_of_mem _ hx)) f

/-! ## C10 -/

/-- C10: every machine `get_Eilenberg_machine` builds from a well-formed
regex AST has disjoint initial-state and acceptable-state lists (the
invariant is established by the atom machine and preserved by the star,
concatenation and union constructors, via `get_Eilenberg_machine_wf`), and
consequently `accept` on the empty string returns `False`. -/
theorem C10_initial_acceptable_disjoint (e : RegJson) (he : WfReg e)
    (m : EilenbergMachine) (hm : get_Eilenberg_machine e = some m) :
    (∀ s ∈ m.initial_states, s ∉ m.acceptable_states) ∧ m.accept "" = false := by
  obtain ⟨m', hm', inv⟩ := get_Eilenberg_machine_wf he
  rw [hm'] at hm
  obtain rfl : m' = m := Option.some.inj hm
  refine ⟨inv.disj, ?_⟩
  rw [EilenbergMachine.accept]
  refine acceptLoop_false m' _ ?_ _
  intro it hit
  obtain ⟨s, hs, hpair⟩ := List.mem_map.mp hit
  rw [← hpair]
  exact ⟨rfl, inv.disj s hs⟩

/-- Witness for `C10_initial_acceptable_disjoint` at the atom AST
`{'key': 'atm', 'val': 'a'}`. -/
theorem C10_initial_acceptable_disjoint_witness :
    (∀ s ∈ (⟨2, [[(1, 'a')], []], [0], [1]⟩ : EilenbergMachine).initial_states,
      s ∉ (⟨2, [[(1, 'a')], []], [0], [1]⟩ : EilenbergMachine).acceptable_states) ∧
    (⟨2, [[(1, 'a')], []], [0], [1]⟩ : EilenbergMachine).accept "" = false :=
  C10_initial_acceptable_disjoint (RegJson.atmNode "atm" 'a') (WfReg.atm 'a') _ rfl

/-! ## C5 -/

/-- C5: for every pair of well-formed regex ASTs, building the
concatenation succeeds and the resulting machine's initial states are
exactly the first sub-machine's initial states, while its acceptable states
are exactly the renumbered (`concatRemap`) acceptable states of the second
sub-machine.  The final conjunct records why the renumbering is total: no
acceptable state of the second sub-machine is also one of its initial
states, so the claim's remaining case never arises for sub-machines the
builder produces. -/
theorem C5_concat_initial_acceptable (l r : RegJson) (hl : WfReg l) (hr : WfReg r) :
    ∃ a b res,
      get_Eilenberg_machine l = some a ∧
      get_Eilenberg_machine r = some b ∧
      _build_Eilenberg_machine_oper_concat a b = some res ∧
      get_Eilenberg_machine (RegJson.binNode "." l r) = some res ∧
      res.initial_states = a.initial_states ∧
      res.acceptable_states = b.acceptable_states.map (concatRemap a b) ∧
      (∀ s ∈ b.acceptable_states, s ∉ b.initial_states) := by
  obtain ⟨a, ha, inva⟩ := get_Eilenberg_machine_wf hl
  obtain ⟨b, hb, invb⟩ := get_Eilenberg_machine_wf hr
  obtain ⟨res, hres, _, hinit, hacc, _⟩ := concat_spec a b inva invb
  refine ⟨a, b, res, ha, hb, hres, ?_, hinit, hacc, ?_⟩
  · have hu : get_Eilenberg_machine (RegJson.binNode "." l r) = (do
        let machine_fst ← get_Eilenberg_machine l
        let machine_snd ← get_Eilenberg_machine r
        _build_Eilenberg_machine_oper_concat machine_fst machine_snd) := rfl
    rw [hu, ha, hb]
    exact hres
  · intro s hs hsin
    exact invb.disj s hsin hs

/-- Witness for `C5_concat_initial_acceptable` at the concrete pair of atom
ASTs for `'a'` and `'b'`. -/
theorem C5_concat_initial_acceptable_witness :
    ∃ a b res,
      get_Eilenberg_machine (RegJson.atmNode "atm" 'a') = some a ∧
      get_Eilenberg_machine (RegJson.atmNode "atm" 'b') = some b ∧
      _build_Eilenberg_machine_oper_concat a b = some res ∧
      get_Eilenberg_machine (RegJson.binNode "." (RegJson.atmNode "atm" 'a')
        (RegJson.atmNode "atm" 'b')) = some res ∧
      res.initial_states = a.initial_states ∧
      res.acceptable_states = b.acceptable_states.map (concatRemap a b) ∧
      (∀ s ∈ b.acceptable_states, s ∉ b.initial_states) :=
  C5_concat_initial_acceptable (RegJson.atmNode "atm" 'a') (RegJson.atmNode "atm" 'b')
    (WfReg.atm 'a') (WfReg.atm 'b')

/-! ## Reachability infrastructure for `eliminate_unreachable_states` (C7) -/

/-- The `used` array computed by the BFS of `eliminate_unreachable_states`
(the same expression as in the definition). -/
def prunedUsed (m : DFSM) : List Bool :=
  bfsLoop m.transitions_between_states
    (m.number_states + (m.transitions_between_states.map List.length).sum + 1)
    [m.initial_state]
    ((List.replicate m.number_states false).set m.initial_state true)

/-- New index of original state `s` after pruning: the number of surviving
states with a smaller original index. -/
def pruneIdx (m : DFSM) (s : Nat) : Nat :=
  keepCount (fun t => (prunedUsed m).getD t false) s

/-- The surviving original states, in ascending order. -/
def usedStates (m : DFSM) : List Nat :=
  (List.range m.number_states).filter (fun s => (prunedUsed m).getD s false)

/-- The machine `eliminate_unreachable_states` is specified to produce,
written directly with filters and maps: keep the surviving states in
ascending original order, keep only edges whose target survives (a
surviving source's edges all have surviving targets), remap everything
through `pruneIdx`. -/
def pruneSpec (m : DFSM) : DFSM :=
  ⟨m.alphabet, (usedStates m).length,
    (usedStates m).map (fun s =>
      ((m.transitions_between_states.getD s []).filter
        (fun e => (prunedUsed m).getD e.1 false)).map (fun e => (pruneIdx m e.1, e.2))),
    pruneIdx m m.initial_state,
    (m.acceptable_states.filter (fun s => (prunedUsed m).getD s false)).map (pruneIdx m)⟩

/-- Reachability from the initial state along listed transitions. -/
inductive Reaches (m : DFSM) : Nat → Prop
  | init : Reaches m m.initial_state
  | step {s t : Nat} {c : Char} (h : Reaches m s)
      (he : (t, c) ∈ m.transitions_between_states.getD s []) : Reaches m t

/-- Well-formedness of an externally supplied deterministic machine. -/
structure WfDFSM (m : DFSM) : Prop where
  init_lt : m.initial_state < m.number_states
  trans_len : m.transitions_between_states.length = m.number_states
  edge_lt : ∀ row ∈ m.transitions_between_states, ∀ e ∈ row, e.1 < m.number_states
  acc_lt : ∀ s ∈ m.acceptable_states, s < m.number_states

/-- Number of unmarked entries of a `used` array. -/
def countFalse (l : List Bool) : Nat := l.countP (fun b => ! b)

theorem getD_set_self {l : List Bool} {i : Nat} (h : i < l.length) (b d : Bool) :
    (l.set i b).getD i d = b := by
  rw [List.getD_eq_getElem?_getD, List.getElem?_set_self h]
  rfl

theorem getD_set_ne {l : List Bool} {i j : Nat} (h : i ≠ j) (b d : Bool) :
    (l.set i b).getD j d = l.getD j d := by
  rw [List.getD_eq_getElem?_getD, List.getElem?_set_ne h, ← List.getD_eq_getElem?_getD]

theorem getD_true_lt {l : List Bool} {i : Nat} (h : l.getD i false = true) : i < l.length := by
  by_contra hc
  rw [List.getD_eq_getElem?_getD, List.getElem?_eq_none (Nat.le_of_not_lt hc)] at h
  cases h

theorem countFalse_set_true {l : List Bool} {i : Nat} (hi : i < l.length)
    (h : l.getD i false = false) :
    countFalse (l.set i true) + 1 = countFalse l := by
  have hli : l[i] = false := by
    rw [List.getD_eq_getElem?_getD, List.getElem?_eq_getElem hi] at h
    exact h
  have hpos : 0 < countFalse l := by
    refine List.countP_pos_iff.mpr ⟨false, ?_, rfl⟩
    rw [← hli]
    exact List.getElem_mem hi
  have := List.countP_set (fun b => ! b) l i true hi
  rw [hli] at this
  simp only [Bool.not_false, Bool.not_true, if_true, Bool.false_eq_true, if_false] at this
  unfold countFalse at *
  omega

theorem countFalse_le_length (l : List Bool) : countFalse l ≤ l.length :=
  List.countP_le_length _

theorem countFalse_replicate_set (n i : Nat) :
    countFalse ((List.replicate n false).set i true) ≤ n := by
  have h1 := countFalse_le_length ((List.replicate n false).set i true)
  rw [List.length_set, List.length_replicate] at h1
  exact h1

/-- Proof-side name for the inner fold of `bfsLoop`: process the edges of a
dequeued state, marking and enqueueing unmarked targets. -/
def bfsStepFold (row : List (Nat × Char)) (q0 : List Nat) (u0 : List Bool) :
    List Nat × List Bool :=
  row.foldl (fun (acc : List Nat × List Bool) (e : Nat × Char) =>
    if acc.2.getD e.1 false then acc else (acc.1 ++ [e.1], acc.2.set e.1 true)) (q0, u0)

theorem bfsStepFold_cons_marked (st : Nat) (c : Char) (row : List (Nat × Char))
    (q0 : List Nat) (u0 : List Bool) (h : u0.getD st false = true) :
    bfsStepFold ((st, c) :: row) q0 u0 = bfsStepFold row q0 u0 := by
  rw [bfsStepFold, List.foldl_cons]
  simp only [h, if_true]
  rfl

theorem bfsStepFold_cons_unmarked (st : Nat) (c : Char) (row : List (Nat × Char))
    (q0 : List Nat) (u0 : List Bool) (h : u0.getD st false = false) :
    bfsStepFold ((st, c) :: row) q0 u0 = bfsStepFold row (q0 ++ [st]) (u0.set st true) := by
  rw [bfsStepFold, List.foldl_cons]
  simp only [h, Bool.false_eq_true, if_false]
  rfl

theorem bfsStepFold_length (row : List (Nat × Char)) :
    ∀ q0 u0, (bfsStepFold row q0 u0).2.length = u0.length := by
  induction row with
  | nil => intro q0 u0; rfl
  | cons e rest ih =>
    intro q0 u0
    obtain ⟨st, c⟩ := e
    cases h : u0.getD st false
    · rw [bfsStepFold_cons_unmarked st c rest q0 u0 h, ih, List.length_set]
    · rw [bfsStepFold_cons_marked st c rest q0 u0 h, ih]

theorem bfsStepFold_mono (row : List (Nat × Char)) :
    ∀ q0 u0 s, u0.getD s false = true →
      (bfsStepFold row q0 u0).2.getD s false = true := by
  induction row with
  | nil => intro q0 u0 s h; exact h
  | cons e rest ih =>
    intro q0 u0 s h
    obtain ⟨st, c⟩ := e
    cases hst : u0.getD st false
    · rw [bfsStepFold_cons_unmarked st c rest q0 u0 hst]
      refine ih _ _ s ?_
      by_cases hss : st = s
      · subst hss
        rw [h] at hst
        cases hst
      · rw [getD_set_ne hss]
        exact h
    · rw [bfsStepFold_cons_marked st c rest q0 u0 hst]
      exact ih _ _ s h

theorem bfsStepFold_new_marks (row : List (Nat × Char)) :
    ∀ q0 u0 s, (bfsStepFold row q0 u0).2.getD s false = true →
      u0.getD s false = true ∨ ∃ c, (s, c) ∈ row := by
  induction row with
  | nil => intro q0 u0 s h; exact Or.inl h
  | cons e rest ih =>
    intro q0 u0 s h
    obtain ⟨st, c⟩ := e
    cases hst : u0.getD st false
    · rw [bfsStepFold_cons_unmarked st c rest q0 u0 hst] at h
      rcases ih _ _ s h with h1 | ⟨c', hc'⟩
      · by_cases hss : st = s
        · subst hss
          exact Or.inr ⟨c, List.mem_cons_self _ _⟩
        · rw [getD_set_ne hss] at h1
          exact Or.inl h1
      · exact Or.inr ⟨c', List.mem_cons_of_mem _ hc'⟩
    · rw [bfsStepFold_cons_marked st c rest q0 u0 hst] at h
      rcases ih _ _ s h with h1 | ⟨c', hc'⟩
      · exact Or.inl h1
      · exact Or.inr ⟨c', List.mem_cons_of_mem _ hc'⟩

theorem bfsStepFold_covers (row : List (Nat × Char)) :
    ∀ q0 u0, ∀ e ∈ row, e.1 < u0.length →
      (bfsStepFold row q0 u0).2.getD e.1 false = true := by
  induction row with
  | nil => intro q0 u0 e he; cases he
  | cons e0 rest ih =>
    intro q0 u0 e he hlt
    obtain ⟨st, c⟩ := e0
    rcases List.mem_cons.mp he with heq | hmem
    · subst heq
      cases hst : u0.getD st false
      · rw [bfsStepFold_cons_unmarked st c rest q0 u0 hst]
        refine bfsStepFold_mono rest _ _ _ ?_
        exact getD_set_self hlt true false
      · rw [bfsStepFold_cons_marked st c rest q0 u0 hst]
        exact bfsStepFold_mono rest _ _ _ hst
    · cases hst : u0.getD st false
      · rw [bfsStepFold_cons_unmarked st c rest q0 u0 hst]
        refine ih _ _ e hmem ?_
        rw [List.length_set]
        exact hlt
      · rw [bfsStepFold_cons_marked st c rest q0 u0 hst]
        exact ih _ _ e hmem hlt

theorem bfsStepFold_queue_grows (row : List (Nat × Char)) :
    ∀ q0 u0 x, x ∈ q0 → x ∈ (bfsStepFold row q0 u0).1 := by
  induction row with
  | nil => intro q0 u0 x h; exact h
  | cons e rest ih =>
    intro q0 u0 x h
    obtain ⟨st, c⟩ := e
    cases hst : u0.getD st false
    · rw [bfsStepFold_cons_unmarked st c rest q0 u0 hst]
      exact ih _ _ x (List.mem_append_left _ h)
    · rw [bfsStepFold_cons_marked st c rest q0 u0 hst]
      exact ih _ _ x h

theorem bfsStepFold_queue_src (row : List (Nat × Char)) :
    ∀ q0 u0, (∀ e ∈ row, e.1 < u0.length) → ∀ x, x ∈ (bfsStepFold row q0 u0).1 →
      x ∈ q0 ∨ (bfsStepFold row q0 u0).2.getD x false = true := by
  induction row with
  | nil => intro q0 u0 _ x h; exact Or.inl h
  | cons e rest ih =>
    intro q0 u0 hrow x h
    obtain ⟨st, c⟩ := e
    have hstlt : st < u0.length := hrow (st, c) (List.mem_cons_self _ _)
    have hrow' : ∀ e ∈ rest, e.1 < u0.length :=
      fun e he => hrow e (List.mem_cons_of_mem _ he)
    cases hst : u0.getD st false
    · rw [bfsStepFold_cons_unmarked st c rest q0 u0 hst] at h ⊢
      have hrow'' : ∀ e ∈ rest, e.1 < (u0.set st true).length := by
        intro e he
        rw [List.length_set]
        exact hrow' e he
      rcases ih _ _ hrow'' x h with h1 | h1
      · rcases List.mem_append.mp h1 with h2 | h2
        · exact Or.inl h2
        · have : x = st := by simpa using h2
          subst this
          exact Or.inr (bfsStepFold_mono rest _ _ _ (getD_set_self hstlt true false))
      · exact Or.inr h1
    · rw [bfsStepFold_cons_marked st c rest q0 u0 hst] at h ⊢
      exact ih _ _ hrow' x h

theorem bfsStepFold_new_in_queue (row : List (Nat × Char)) :
    ∀ q0 u0 s, (bfsStepFold row q0 u0).2.getD s false = true →
      u0.getD s false = false → s ∈ (bfsStepFold row q0 u0).1 := by
  induction row with
  | nil =>
    intro q0 u0 s h h0
    have : u0.getD s false = true := h
    rw [this] at h0
    cases h0
  | cons e rest ih =>
    intro q0 u0 s h h0
    obtain ⟨st, c⟩ := e
    cases hst : u0.getD st false
    · rw [bfsStepFold_cons_unmarked st c rest q0 u0 hst] at h ⊢
      by_cases hss : st = s
      · subst hss
        exact bfsStepFold_queue_grows rest _ _ st
          (List.mem_append_right _ (List.mem_singleton.mpr rfl))
      · refine ih _ _ s h ?_
        rw [getD_set_ne hss]
        exact h0
    · rw [bfsStepFold_cons_marked st c rest q0 u0 hst] at h ⊢
      exact ih _ _ s h h0

theorem bfsStepFold_measure (row : List (Nat × Char)) :
    ∀ q0 u0, (∀ e ∈ row, e.1 < u0.length) →
      countFalse (bfsStepFold row q0 u0).2 + (bfsStepFold row q0 u0).1.length =
        countFalse u0 + q0.length := by
  induction row with
  | nil => intro q0 u0 _; rfl
  | cons e rest ih =>
    intro q0 u0 hrow
    obtain ⟨st, c⟩ := e
    have hstlt : st < u0.length := hrow (st, c) (List.mem_cons_self _ _)
    have hrow' : ∀ e ∈ rest, e.1 < u0.length :=
      fun e he => hrow e (List.mem_cons_of_mem _ he)
    cases hst : u0.getD st false
    · rw [bfsStepFold_cons_unmarked st c rest q0 u0 hst]
      have hrow'' : ∀ e ∈ rest, e.1 < (u0.set st true).length := by
        intro e he
        rw [List.length_set]
        exact hrow' e he
      have hih := ih (q0 ++ [st]) (u0.set st true) hrow''
      have hcf := countFalse_set_true hstlt hst
      rw [hih, List.length_append]
      simp only [List.length_singleton]
      omega
    · rw [bfsStepFold_cons_marked st c rest q0 u0 hst]
      exact ih _ _ hrow'

theorem bfsLoop_spec (m : DFSM)
    (_hwf_len : m.transitions_between_states.length = m.number_states)
    (hwf_edge : ∀ row ∈ m.transitions_between_states, ∀ e ∈ row, e.1 < m.number_states) :
    ∀ (fuel : Nat) (q : List Nat) (used : List Bool),
      used.length = m.number_states →
      (∀ x ∈ q, used.getD x false = true) →
      (∀ s, used.getD s false = true → Reaches m s) →
      (∀ s, used.getD s false = true → s ∈ q ∨
        ∀ e ∈ m.transitions_between_states.getD s [], used.getD e.1 false = true) →
      countFalse used + q.length ≤ fuel →
      (bfsLoop m.transitions_between_states fuel q used).length = m.number_states ∧
      (∀ s, used.getD s false = true →
        (bfsLoop m.transitions_between_states fuel q used).getD s false = true) ∧
      (∀ s, (bfsLoop m.transitions_between_states fuel q used).getD s false = true →
        Reaches m s) ∧
      (∀ s, (bfsLoop m.transitions_between_states fuel q used).getD s false = true →
        ∀ e ∈ m.transitions_between_states.getD s [],
          (bfsLoop m.transitions_between_states fuel q used).getD e.1 false = true) := by
  intro fuel
  induction fuel with
  | zero =>
    intro q used hlen hq hreach hclo hmeas
    cases q with
    | nil =>
      rw [bfsLoop]
      refine ⟨hlen, fun s h => h, hreach, ?_⟩
      intro s hs e he
      rcases hclo s hs with h1 | h1
      · cases h1
      · exact h1 e he
    | cons state rest =>
      exfalso
      simp only [List.length_cons] at hmeas
      omega
  | succ fuel ih =>
    intro q used hlen hq hreach hclo hmeas
    cases q with
    | nil =>
      rw [bfsLoop]
      refine ⟨hlen, fun s h => h, hreach, ?_⟩
      intro s hs e he
      rcases hclo s hs with h1 | h1
      · cases h1
      · exact h1 e he
    | cons state rest =>
      have hrowlt : ∀ e ∈ m.transitions_between_states.getD state [], e.1 < used.length := by
        intro e he
        rw [hlen]
        by_cases hsl : state < m.transitions_between_states.length
        · have hget : m.transitions_between_states.getD state []
              = m.transitions_between_states[state] := by
            simp [List.getD_eq_getElem?_getD, List.getElem?_eq_getElem hsl]
          rw [hget] at he
          exact hwf_edge _ (List.getElem_mem hsl) e he
        · have hget : m.transitions_between_states.getD state [] = [] := by
            simp [List.getD_eq_getElem?_getD,
              List.getElem?_eq_none (Nat.le_of_not_lt hsl)]
          rw [hget] at he
          cases he
      have hstep : bfsLoop m.transitions_between_states (fuel + 1) (state :: rest) used =
          bfsLoop m.transitions_between_states fuel
            (bfsStepFold (m.transitions_between_states.getD state []) rest used).1
            (bfsStepFold (m.transitions_between_states.getD state []) rest used).2 := by
        rw [bfsLoop]
        rfl
      have hreach_state : Reaches m state := hreach state (hq state (List.mem_cons_self _ _))
      have hlen' : (bfsStepFold (m.transitions_between_states.getD state []) rest used).2.length
          = m.number_states := by
        rw [bfsStepFold_length, hlen]
      have hq' : ∀ x ∈ (bfsStepFold (m.transitions_between_states.getD state []) rest used).1,
          (bfsStepFold (m.transitions_between_states.getD state []) rest used).2.getD x false
            = true := by
        intro x hx
        rcases bfsStepFold_queue_src _ _ _ hrowlt x hx with h1 | h1
        · exact bfsStepFold_mono _ _ _ _ (hq x (List.mem_cons_of_mem _ h1))
        · exact h1
      have hreach' : ∀ s,
          (bfsStepFold (m.transitions_between_states.getD state []) rest used).2.getD s false
            = true → Reaches m s := by
        intro s hs
        rcases bfsStepFold_new_marks _ _ _ s hs with h1 | ⟨c, hc⟩
        · exact hreach s h1
        · exact Reaches.step hreach_state hc
      have hclo' : ∀ s,
          (bfsStepFold (m.transitions_between_states.getD state []) rest used).2.getD s false
            = true →
          s ∈ (bfsStepFold (m.transitions_between_states.getD state []) rest used).1 ∨
          ∀ e ∈ m.transitions_between_states.getD s [],
            (bfsStepFold (m.transitions_between_states.getD state []) rest used).2.getD e.1
              false = true := by
        intro s hs
        by_cases hold : used.getD s false = true
        · rcases hclo s hold with h1 | h1
          · rcases List.mem_cons.mp h1 with h2 | h2
            · subst h2
              refine Or.inr ?_
              intro e he
              exact bfsStepFold_covers _ _ _ e he (hrowlt e he)
            · exact Or.inl (bfsStepFold_queue_grows _ _ _ s h2)
          · refine Or.inr ?_
            intro e he
            exact bfsStepFold_mono _ _ _ _ (h1 e he)
        · refine Or.inl ?_
          refine bfsStepFold_new_in_queue _ _ _ s hs ?_
          cases hx : used.getD s false
          · rfl
          · exact absurd hx hold
      have hmeas' :
          countFalse (bfsStepFold (m.transitions_between_states.getD state []) rest used).2 +
          (bfsStepFold (m.transitions_between_states.getD state []) rest used).1.length
            ≤ fuel := by
        have := bfsStepFold_measure _ rest used hrowlt
        simp only [List.length_cons] at hmeas
        omega
      have hmain := ih _ _ hlen' hq' hreach' hclo' hmeas'
      rw [hstep]
      refine ⟨hmain.1, ?_, hmain.2.2.1, hmain.2.2.2⟩
      intro s hs
      exact hmain.2.1 s (bfsStepFold_mono _ _ _ _ hs)

theorem getD_replicate_false (n s : Nat) :
    (List.replicate n false).getD s false = false := by
  rw [List.getD_eq_getElem?_getD]
  by_cases h : s < n
  · rw [List.getElem?_eq_getElem (by simpa using h)]
    simp [List.getElem_replicate]
  · rw [List.getElem?_eq_none (by simpa using Nat.le_of_not_lt h)]
    rfl

theorem used0_marks (m : DFSM) (hm : WfDFSM m) (s : Nat) :
    ((List.replicate m.number_states false).set m.initial_state true).getD s false = true ↔
      s = m.initial_state := by
  constructor
  · intro h
    by_cases hs : m.initial_state = s
    · exact hs.symm
    · rw [getD_set_ne hs, getD_replicate_false] at h
      cases h
  · intro h
    subst h
    exact getD_set_self (by simpa using hm.init_lt) true false

/-- The bundle of facts `bfsLoop_spec` yields for the actual call made by
`eliminate_unreachable_states`. -/
theorem prunedUsed_spec (m : DFSM) (hm : WfDFSM m) :
    (prunedUsed m).length = m.number_states ∧
    (∀ s, (prunedUsed m).getD s false = true ↔ Reaches m s) := by
  have hlen0 : ((List.replicate m.number_states false).set m.initial_state true).length
      = m.number_states := by
    simp
  have hq0 : ∀ x ∈ [m.initial_state],
      ((List.replicate m.number_states false).set m.initial_state true).getD x false = true := by
    intro x hx
    have hxi : x = m.initial_state := by simpa using hx
    rw [hxi]
    exact (used0_marks m hm m.initial_state).mpr rfl
  have hreach0 : ∀ s,
      ((List.replicate m.number_states false).set m.initial_state true).getD s false = true →
      Reaches m s := by
    intro s hs
    obtain rfl := (used0_marks m hm s).mp hs
    exact Reaches.init
  have hclo0 : ∀ s,
      ((List.replicate m.number_states false).set m.initial_state true).getD s false = true →
      s ∈ [m.initial_state] ∨
      ∀ e ∈ m.transitions_between_states.getD s [],
        ((List.replicate m.number_states false).set m.initial_state true).getD e.1 false
          = true := by
    intro s hs
    obtain rfl := (used0_marks m hm s).mp hs
    exact Or.inl (List.mem_singleton.mpr rfl)
  have hmeas0 : countFalse ((List.replicate m.number_states false).set m.initial_state true) +
      ([m.initial_state] : List Nat).length ≤
      m.number_states + (m.transitions_between_states.map List.length).sum + 1 := by
    have := countFalse_replicate_set m.number_states m.initial_state
    simp only [List.length_singleton]
    omega
  have hmain := bfsLoop_spec m hm.trans_len hm.edge_lt
    (m.number_states + (m.transitions_between_states.map List.length).sum + 1)
    [m.initial_state]
    ((List.replicate m.number_states false).set m.initial_state true)
    hlen0 hq0 hreach0 hclo0 hmeas0
  obtain ⟨hL, hmono, hsound, hclosed⟩ := hmain
  refine ⟨hL, ?_⟩
  intro s
  constructor
  · exact hsound s
  · intro hr
    induction hr with
    | init => exact hmono m.initial_state ((used0_marks m hm m.initial_state).mpr rfl)
    | @step s' t c h he ihx => exact hclosed s' ihx (t, c) he

theorem set_getElem_self_list {α : Type} (l : List α) (i : Nat) (h : i < l.length) :
    l.set i l[i] = l := by
  apply List.ext_getElem?
  intro j
  by_cases hij : i = j
  · subst hij
    rw [List.getElem?_set_self h, List.getElem?_eq_getElem h]
  · rw [List.getElem?_set_ne hij]

theorem foldl_filter_map_append {α β : Type} (keep : α → Bool) (g : α → β) (l : List α) :
    ∀ accu : List β,
      l.foldl (fun acc s => if keep s then acc ++ [g s] else acc) accu =
        accu ++ (l.filter keep).map g := by
  induction l with
  | nil => intro accu; simp
  | cons a t ih =>
    intro accu
    rw [List.foldl_cons]
    cases h : keep a
    · simp only [Bool.false_eq_true, if_false]
      rw [ih, List.filter_cons, h]
      simp
    · simp only [if_true]
      rw [ih, List.filter_cons, h]
      simp

theorem foldl_ite_appendAt {α β : Type} (p : α → Bool) (f : α → β) (i : Nat) (row : List α) :
    ∀ t : List (List β),
      row.foldl (fun t e => if p e then appendAt t i (f e) else t) t =
        ((row.filter p).map f).foldl (fun t x => appendAt t i x) t := by
  induction row with
  | nil => intro t; rfl
  | cons e rest ih =>
    intro t
    rw [List.foldl_cons, List.filter_cons]
    cases h : p e
    · simp only [Bool.false_eq_true, if_false]
      exact ih t
    · simp only [if_true]
      rw [List.map_cons, List.foldl_cons]
      exact ih (appendAt t i (f e))

theorem getD_set_self_list {α : Type} {l : List (List α)} {i : Nat} (h : i < l.length)
    (b d : List α) : (l.set i b).getD i d = b := by
  rw [List.getD_eq_getElem?_getD, List.getElem?_set_self h]
  rfl

theorem foldl_appendAt_set {β : Type} (i : Nat) (xs : List β) :
    ∀ t : List (List β), i < t.length →
      xs.foldl (fun t x => appendAt t i x) t = t.set i (t.getD i [] ++ xs) := by
  induction xs with
  | nil =>
    intro t hi
    have hget : t.getD i [] = t[i] := by
      rw [List.getD_eq_getElem?_getD, List.getElem?_eq_getElem hi]
      rfl
    simp only [List.foldl_nil, List.append_nil, hget]
    rw [set_getElem_self_list t i hi]
  | cons x rest ih =>
    intro t hi
    rw [List.foldl_cons]
    have hi' : i < (appendAt t i x).length := by
      rw [appendAt_length]
      exact hi
    rw [ih _ hi']
    have hget : (appendAt t i x).getD i [] = t.getD i [] ++ [x] := by
      rw [appendAt]
      exact getD_set_self_list (by simpa using hi) _ _
    rw [hget, appendAt, List.set_set]
    simp


theorem set_prefix_replicate {β : Type} (A : List (List β)) (j : Nat) (v : List β)
    (hj : 1 ≤ j) :
    (A ++ List.replicate j ([] : List β)).set A.length v =
      A ++ ([v] ++ List.replicate (j - 1) ([] : List β)) := by
  rw [List.set_append_right _ _ (Nat.le_refl _)]
  congr 1
  obtain ⟨j', rfl⟩ : ∃ j', j = j' + 1 := ⟨j - 1, by omega⟩
  rw [List.replicate_succ]
  simp

theorem getD_prefix_replicate {β : Type} (A : List (List β)) (j : Nat) (hj : 1 ≤ j) :
    (A ++ List.replicate j ([] : List β)).getD A.length [] = [] := by
  rw [List.getD_eq_getElem?_getD, List.getElem?_append_right (Nat.le_refl _)]
  obtain ⟨j', rfl⟩ : ∃ j', j = j' + 1 := ⟨j - 1, by omega⟩
  rw [List.replicate_succ]
  simp

theorem length_prefix_replicate {β : Type} (A : List (List β)) (j : Nat) :
    (A ++ List.replicate j ([] : List β)).length = A.length + j := by
  simp

/-- The transition-rebuilding fold of `eliminate_unreachable_states`, in
closed form: after scanning states `0 .. k-1`, the rows of the kept states
seen so far stand in order, followed by still-empty rows. -/
theorem foldl_rows_spec {β : Type} (keep : Nat → Bool) (n : Nat)
    (rowT : Nat → List β) (idx : Nat → Nat)
    (hidx : ∀ s, keep s = true → s < n → idx s = keepCount keep s) :
    ∀ k, k ≤ n →
      (List.range k).foldl
        (fun t s => if keep s then
            ((rowT s).foldl (fun t x => appendAt t (idx s) x) t) else t)
        (List.replicate (keepCount keep n) ([] : List β)) =
      ((List.range k).filter keep).map rowT ++
        List.replicate (keepCount keep n - keepCount keep k) ([] : List β) := by
  intro k
  induction k with
  | zero =>
    intro _
    simp [keepCount]
  | succ k ih =>
    intro hk1
    have hk : k ≤ n := Nat.le_of_succ_le hk1
    have hkn : k < n := hk1
    rw [List.range_succ, List.foldl_append, ih hk, List.filter_append]
    cases hkeep : keep k
    · have hf : List.filter keep [k] = [] := by simp [List.filter_cons, hkeep]
      have hc : keepCount keep (k + 1) = keepCount keep k := by
        rw [keepCount_succ, hkeep]
        simp
      simp only [List.foldl_cons, List.foldl_nil, hkeep, Bool.false_eq_true, if_false,
        hf, List.append_nil]
      rw [hc]
    · have hf : List.filter keep [k] = [k] := by simp [List.filter_cons, hkeep]
      have hlt : keepCount keep k < keepCount keep n := keepCount_lt keep hkn hkeep
      have hAlen : (((List.range k).filter keep).map rowT).length = keepCount keep k := by
        rw [List.length_map]
        rfl
      have hilen : idx k <
          (((List.range k).filter keep).map rowT ++
            List.replicate (keepCount keep n - keepCount keep k) ([] : List β)).length := by
        rw [length_prefix_replicate, hAlen, hidx k hkeep hkn]
        omega
      simp only [List.foldl_cons, List.foldl_nil, hkeep, if_true, hf]
      rw [foldl_appendAt_set _ _ _ hilen]
      rw [hidx k hkeep hkn, ← hAlen]
      rw [getD_prefix_replicate _ _ (by omega), set_prefix_replicate _ _ _ (by omega)]
      have hc : keepCount keep (k + 1) = keepCount keep k + 1 := by
        rw [keepCount_succ, hkeep]
        simp
      rw [hAlen, List.map_append, hc]
      have harith : keepCount keep n - keepCount keep k - 1 =
          keepCount keep n - (keepCount keep k + 1) := by omega
      rw [harith]
      simp [List.append_assoc]

theorem eliminate_eq_pruneSpec (m : DFSM) (hm : WfDFSM m) :
    m.eliminate_unreachable_states = pruneSpec m := by
  obtain ⟨hULen, hUiff⟩ := prunedUsed_spec m hm
  have hcounter : (renumber_fold (fun s => (prunedUsed m).getD s false) 0 m.number_states).2
      = (usedStates m).length := by
    rw [renumber_fold_counter]
    rw [Nat.zero_add]
    rfl
  have hlookupD : ∀ s, (prunedUsed m).getD s false = true →
      ((renumber_fold (fun s => (prunedUsed m).getD s false) 0 m.number_states).1.lookup
        s).getD 0 = pruneIdx m s := by
    intro s hs
    have hsn : s < m.number_states := by
      have := getD_true_lt hs
      rw [hULen] at this
      exact this
    rw [renumber_fold_lookup _ _ _ s, if_pos ⟨hsn, hs⟩]
    simp [pruneIdx]
  have hinitkeep : (prunedUsed m).getD m.initial_state false = true :=
    (hUiff m.initial_state).mpr Reaches.init
  rw [DFSM.eliminate_unreachable_states, pruneSpec, DFSM.mk.injEq]
  refine ⟨rfl, ?_, ?_, ?_, ?_⟩
  · -- number of states
    exact hcounter
  · -- transitions
    show (List.range m.number_states).foldl
        (fun t s => if (prunedUsed m).getD s false = true then
            (m.transitions_between_states.getD s []).foldl
              (fun t (e : Nat × Char) => if (prunedUsed m).getD e.1 false = true then
                  appendAt t
                    (((renumber_fold (fun s => (prunedUsed m).getD s false) 0
                      m.number_states).1.lookup s).getD 0)
                    ((((renumber_fold (fun s => (prunedUsed m).getD s false) 0
                      m.number_states).1.lookup e.1).getD 0), e.2)
                else t) t
          else t)
        (List.replicate (renumber_fold (fun s => (prunedUsed m).getD s false) 0
          m.number_states).2 ([] : List (Nat × Char)))
      = (usedStates m).map (fun s =>
          ((m.transitions_between_states.getD s []).filter
            (fun e => (prunedUsed m).getD e.1 false)).map
              (fun e => (pruneIdx m e.1, e.2)))
    have hc2 : (renumber_fold (fun s => (prunedUsed m).getD s false) 0 m.number_states).2
        = keepCount (fun s => (prunedUsed m).getD s false) m.number_states := by
      rw [renumber_fold_counter, Nat.zero_add]
    rw [hc2]
    have hfeq : (fun (t : List (List (Nat × Char))) s =>
        if (prunedUsed m).getD s false = true then
            (m.transitions_between_states.getD s []).foldl
              (fun t (e : Nat × Char) => if (prunedUsed m).getD e.1 false = true then
                  appendAt t
                    (((renumber_fold (fun s => (prunedUsed m).getD s false) 0
                      m.number_states).1.lookup s).getD 0)
                    ((((renumber_fold (fun s => (prunedUsed m).getD s false) 0
                      m.number_states).1.lookup e.1).getD 0), e.2)
                else t) t
          else t) = (fun (t : List (List (Nat × Char))) s =>
        if (prunedUsed m).getD s false = true then
            (((m.transitions_between_states.getD s []).filter
                (fun e => (prunedUsed m).getD e.1 false)).map
              (fun e => ((((renumber_fold (fun s => (prunedUsed m).getD s false) 0
                      m.number_states).1.lookup e.1).getD 0), e.2))).foldl
              (fun t x =>
                appendAt t (((renumber_fold (fun s => (prunedUsed m).getD s false) 0
                  m.number_states).1.lookup s).getD 0) x) t
          else t) := by
      funext t s
      by_cases h : (prunedUsed m).getD s false = true
      · simp only [h, if_true]
        rw [foldl_ite_appendAt]
      · simp only [h, Bool.false_eq_true, if_false]
    rw [hfeq]
    rw [foldl_rows_spec (fun s => (prunedUsed m).getD s false) m.number_states _ _
      ?hidx m.number_states (Nat.le_refl _)]
    case hidx =>
      intro s hs hsn
      rw [renumber_fold_lookup _ _ _ s, if_pos ⟨hsn, hs⟩]
      simp
    rw [Nat.sub_self, List.replicate_zero, List.append_nil]
    refine List.map_congr_left ?_
    intro s hs
    refine List.map_congr_left ?_
    intro e he
    have hekeep : (prunedUsed m).getD e.1 false = true := (List.mem_filter.mp he).2
    rw [hlookupD e.1 hekeep]
  · -- initial state
    exact hlookupD m.initial_state hinitkeep
  · -- acceptable states
    rw [foldl_filter_map_append]
    rw [List.nil_append]
    refine List.map_congr_left ?_
    intro s hs
    exact hlookupD s (List.mem_filter.mp hs).2

/-! ## C7 -/

/-- The machine of the module-level test of `DFSM.py`. -/
def pruneTestMachine : DFSM :=
  ⟨['a', 'b', 'c'], 5, [[(1, 'a'), (3, 'b')], [(4, 'c')], [(1, 'b')], [(4, 'c')], []], 0, [4]⟩

/-- C7: for every well-formed deterministic machine,
`eliminate_unreachable_states` keeps exactly the states reachable from the
initial state (the BFS `used` array characterizes `Reaches`, first
conjunct), and the resulting machine is precisely `pruneSpec`: survivors
renumbered in ascending original order, only edges between survivors kept
(remapped), initial state and surviving acceptable states remapped (second
conjunct).  On the concrete 5-state test machine the unreachable state `2`
is removed, 4 states remain and the accepting list becomes `[3]` (third
conjunct). -/
theorem C7_eliminate_unreachable (m : DFSM) (hm : WfDFSM m) :
    (∀ s, (prunedUsed m).getD s false = true ↔ Reaches m s) ∧
    m.eliminate_unreachable_states = pruneSpec m ∧
    pruneTestMachine.eliminate_unreachable_states =
      ⟨['a', 'b', 'c'], 4, [[(1, 'a'), (2, 'b')], [(3, 'c')], [(3, 'c')], []], 0, [3]⟩ := by
  refine ⟨(prunedUsed_spec m hm).2, eliminate_eq_pruneSpec m hm, by decide⟩

/-- Witness for `C7_eliminate_unreachable` at the concrete test machine. -/
theorem C7_eliminate_unreachable_witness :
    (∀ s, (prunedUsed pruneTestMachine).getD s false = true ↔ Reaches pruneTestMachine s) ∧
    pruneTestMachine.eliminate_unreachable_states = pruneSpec pruneTestMachine ∧
    pruneTestMachine.eliminate_unreachable_states =
      ⟨['a', 'b', 'c'], 4, [[(1, 'a'), (2, 'b')], [(3, 'c')], [(3, 'c')], []], 0, [3]⟩ :=
  C7_eliminate_unreachable pruneTestMachine ⟨by decide, by decide, by decide, by decide⟩
